import Mathlib

/-!
Verification development for the Beer Open scramble scorer
(`outing/views.py`, `outing/models.py`).

The scorecard state machine (`team_scorecard_view` POST handling,
`hole_score` POST handling) and the leaderboard engine
(`_leaderboard_rows`) are shallowly embedded below.  Database rows are
association lists keyed by hole number, Django query primitives
(`get_or_create`, `update_or_create`, `filter(...).delete()`,
`Sum`/`Count` annotations) become the corresponding pure list
operations, and each `messages.*` call site becomes a constructor of a
message type carrying the data interpolated into the rendered string.
Python `dict` access is modelled exactly: `d[k] += 1` is partial
(`KeyError` becomes `none`), `d.get(k, 0)` is total.
-/

set_option maxHeartbeats 1000000

namespace Outing

/-- Lookup in an association list keyed by `Nat`
(models a Django row fetch on a unique key). -/
def lookupA {α : Type} : List (Nat × α) → Nat → Option α
  | [], _ => none
  | p :: ps, k => if p.1 = k then some p.2 else lookupA ps k

/-- Update the row with the given key, or insert a fresh row at the end
(models `get_or_create` followed by field assignment and `save`, and
`update_or_create`). -/
def upsertA {α : Type} : List (Nat × α) → Nat → α → List (Nat × α)
  | [], k, v => [(k, v)]
  | p :: ps, k, v => if p.1 = k then (k, v) :: ps else p :: upsertA ps k v

/-- Delete every row with the given key (models `filter(...).delete()`). -/
def removeA {α : Type} (l : List (Nat × α)) (k : Nat) : List (Nat × α) :=
  l.filter (fun p => p.1 != k)

/-! ### Python string primitives (`.strip()`, `.isdigit()`, `int(...)`)
modelled over the character list of the string, with the exact Unicode
character classes of CPython 3.11 (Unicode 14.0). -/

/-- The codepoints Python's `str.isspace()` accepts and `str.strip()`
removes. -/
def pySpaceChars : List Nat :=
  [0x9, 0xa, 0xb, 0xc, 0xd, 0x1c, 0x1d, 0x1e, 0x1f, 0x20, 0x85, 0xa0,
   0x1680, 0x2000, 0x2001, 0x2002, 0x2003, 0x2004, 0x2005, 0x2006,
   0x2007, 0x2008, 0x2009, 0x200a, 0x2028, 0x2029, 0x202f, 0x205f,
   0x3000]

def pyIsSpace (c : Char) : Bool :=
  pySpaceChars.contains c.toNat

/-- Python `str.strip()`. -/
def pyStrip (s : List Char) : List Char :=
  ((s.dropWhile pyIsSpace).reverse.dropWhile pyIsSpace).reverse

/-- First codepoint of each run of ten Unicode decimal digits
(`Numeric_Type=Decimal`): the characters `int()` accepts, a digit's
value being its offset into the run. -/
def pyDecimalBases : List Nat :=
  [0x30, 0x660, 0x6f0, 0x7c0, 0x966, 0x9e6, 0xa66, 0xae6, 0xb66, 0xbe6,
   0xc66, 0xce6, 0xd66, 0xde6, 0xe50, 0xed0, 0xf20, 0x1040, 0x1090,
   0x17e0, 0x1810, 0x1946, 0x19d0, 0x1a80, 0x1a90, 0x1b50, 0x1bb0,
   0x1c40, 0x1c50, 0xa620, 0xa8d0, 0xa900, 0xa9d0, 0xa9f0, 0xaa50,
   0xabf0, 0xff10, 0x104a0, 0x10d30, 0x11066, 0x110f0, 0x11136,
   0x111d0, 0x112f0, 0x11450, 0x114d0, 0x11650, 0x116c0, 0x11730,
   0x118e0, 0x11950, 0x11c50, 0x11d50, 0x11da0, 0x16a60, 0x16ac0,
   0x16b50, 0x1d7ce, 0x1d7d8, 0x1d7e2, 0x1d7ec, 0x1d7f6, 0x1e140,
   0x1e2f0, 0x1e950, 0x1fbf0]

/-- The decimal value of a character, `none` when it is not a decimal
digit (CPython's per-character to-decimal conversion). -/
def pyDecimalVal (c : Char) : Option Nat :=
  (pyDecimalBases.find? (fun b => b ≤ c.toNat && c.toNat < b + 10)).map
    (fun b => c.toNat - b)

/-- The codepoint ranges with `Numeric_Type=Digit` that are not decimal
digits: `str.isdigit()` accepts them but `int()` raises `ValueError` on
them (superscripts and subscripts such as U+00B2, Ethiopic numbers,
circled, parenthesized, full-stop and negative-circled digits, Kharoshthi,
Rumi, Brahmi number joiners, squared digits). -/
def pyDigitOnlyRanges : List (Nat × Nat) :=
  [(0xb2, 0xb3), (0xb9, 0xb9), (0x1369, 0x1371), (0x19da, 0x19da),
   (0x2070, 0x2070), (0x2074, 0x2079), (0x2080, 0x2089),
   (0x2460, 0x2468), (0x2474, 0x247c), (0x2488, 0x2490),
   (0x24ea, 0x24ea), (0x24f5, 0x24fd), (0x24ff, 0x24ff),
   (0x2776, 0x277e), (0x2780, 0x2788), (0x278a, 0x2792),
   (0x10a40, 0x10a43), (0x10e60, 0x10e68), (0x11052, 0x1105a),
   (0x1f100, 0x1f10a)]

def pyIsDigitChar (c : Char) : Bool :=
  (pyDecimalVal c).isSome ||
    pyDigitOnlyRanges.any (fun r => r.1 ≤ c.toNat && c.toNat ≤ r.2)

/-- Python `str.isdigit()`. -/
def pyIsDigit (s : List Char) : Bool :=
  !s.isEmpty && s.all pyIsDigitChar

/-- Python `int(...)` on an all-`isdigit` string: the base-10 value when
every character is a decimal digit, `none` for the `ValueError` raised
when some character is digit-class but not decimal. -/
def pyIntQ (s : List Char) : Option Nat :=
  s.foldl (fun acc c =>
    match acc, pyDecimalVal c with
    | some n, some d => some (n * 10 + d)
    | _, _ => none) (some 0)

/-- Stroke parsing, `views.py:112-113` and `views.py:995-996`:
`raw = (request.POST.get(...) or "").strip()`;
`strokes = int(raw) if raw.isdigit() else None`.  The outer `none` is
the `ValueError` that `int` raises when the `isdigit` guard lets a
digit-class non-decimal character (such as U+00B2 '²') through — an
uncaught exception that aborts the request. -/
def parseStrokesChecked (raw : String) : Option (Option Nat) :=
  let t := pyStrip raw.data
  if pyIsDigit t then
    match pyIntQ t with
    | some n => some (some n)
    | none => none
  else some none

/-- The value stored on the non-raising path; the handlers below
evaluate `parseStrokesChecked` and abort on its `none` before this
value is ever stored, so within a completing request this is exactly
`int(raw) if raw.isdigit() else None`. -/
def parseStrokes (raw : String) : Option Nat :=
  (parseStrokesChecked raw).getD none

/-! ### Data model (`models.py`) -/

/-- One `Round` row together with its owned `Score` and `DriveUsed` rows.
`scores` maps hole number to the nullable stroke count;
`drives` maps hole number to the `DriveUsed` player id for that hole's
`Score` (a `Score` owns at most one `DriveUsed`). -/
structure RoundState where
  scores : List (Nat × Option Nat)
  drives : List (Nat × Nat)
  finalizedAt : Option Nat
  finalizedBy : Option Nat
deriving DecidableEq

/-- The round's team: the current member player ids, in roster order
(`team.players.all()`). -/
structure TeamState where
  members : List Nat
deriving DecidableEq

/-- The requesting actor, reduced to the three predicates the views
evaluate: `request.user.is_staff`,
`team.players.filter(user=request.user).exists()`, and
`team.players.filter(user=request.user, can_score=True).exists()`. -/
structure Ctx where
  isStaff : Bool
  isMember : Bool
  memberCanScore : Bool
deriving DecidableEq

/-- One message per `messages.*` / error-response call site in the two
scorecard views, carrying the data interpolated into the rendered text. -/
inductive Msg where
  | forbidden
  | roundUnlocked
  | cannotUnlock
  | locked
  | frontQuotaWarning (missing : List Nat)
  | backQuotaWarning (missing : List Nat)
  | cannotFinalizeIncomplete (holesEntered : Nat)
  | frontMissingDrive (missing : List Nat)
  | backMissingDrive (missing : List Nat)
  | finalized
  | saved
  | chooseDrive
  | invalidDriveSelection
  | scoreRecorded
deriving DecidableEq

/-- Which messages are emitted via `messages.error` (or an error
response), as opposed to `messages.warning` / `messages.info` /
`messages.success`. -/
def Msg.isError : Msg → Bool
  | .forbidden => true
  | .cannotUnlock => true
  | .locked => true
  | .cannotFinalizeIncomplete _ => true
  | .frontMissingDrive _ => true
  | .backMissingDrive _ => true
  | .chooseDrive => true
  | .invalidDriveSelection => true
  | _ => false

/-- The two form fields submitted for one hole of the full scorecard:
the raw stroke string `h{n}` (absent field = `""`) and the drive player
id `d{n}` (`none` = blank). -/
structure HoleInput where
  strokes : String
  drive : Option Nat

/-- A full-card POST: the `action` field and the per-hole inputs. -/
structure CardPost where
  action : String
  holes : Nat → HoleInput

/-! ### Scorecard engine (`team_scorecard_view`, `hole_score`) -/

/-- Lazy row creation, `views.py:975` `Score.objects.get_or_create` —
creates a blank `Score` row when none exists. -/
def ensureScore (r : RoundState) (h : Nat) : RoundState :=
  if (lookupA r.scores h).isSome then r
  else { r with scores := r.scores ++ [(h, none)] }

/-- Upsert: `get_or_create` a `Score`, assign `strokes`, `save()`. -/
def setStrokes (r : RoundState) (h : Nat) (v : Option Nat) : RoundState :=
  { r with scores := upsertA r.scores h v }

/-- Upsert of the drive row, `DriveUsed.objects.update_or_create`. -/
def upsertDrive (r : RoundState) (h : Nat) (pid : Nat) : RoundState :=
  { r with drives := upsertA r.drives h pid }

/-- Deletion of the drive row, `DriveUsed.objects.filter(score=sc).delete()`. -/
def deleteDrive (r : RoundState) (h : Nat) : RoundState :=
  { r with drives := removeA r.drives h }

/-- One iteration of the save loop, `views.py:107-126`: upsert the
`Score`'s strokes from the raw form string; then either upsert the
`DriveUsed` (only when the submitted player id is on the round's team —
an id off the team leaves the stored drive untouched and is otherwise
ignored by this path), or delete the `DriveUsed` when the field is
blank. -/
def saveHole (team : TeamState) (post : CardPost) (r : RoundState) (h : Nat) : RoundState :=
  let r1 := setStrokes r h (parseStrokes (post.holes h).strokes)
  match (post.holes h).drive with
  | some pid => if team.members.contains pid then upsertDrive r1 h pid else r1
  | none => deleteDrive r1 h

/-- The full save loop `for h in range(1, 19)`. -/
def applySave (team : TeamState) (post : CardPost) (r : RoundState) : RoundState :=
  (List.range' 1 18).foldl (saveHole team post) r

/-- Entered-hole tallies, `views.py:129-134`: count of `Score` rows with non-null strokes on
`hole <= 9` resp. `hole >= 10`. -/
def enteredFront (r : RoundState) : Nat :=
  r.scores.countP (fun q => decide (q.1 ≤ 9) && q.2.isSome)

def enteredBack (r : RoundState) : Nat :=
  r.scores.countP (fun q => decide (10 ≤ q.1) && q.2.isSome)

/-- The `holes_entered` count of `Score` rows with non-null strokes. -/
def countScored (r : RoundState) : Nat :=
  r.scores.countP (fun q => q.2.isSome)

/-- Python `d.get(k, 0)`. -/
def getD0 (m : List (Nat × Nat)) (k : Nat) : Nat :=
  match lookupA m k with
  | some n => n
  | none => 0

/-- Python dict update `d[k] = d.get(k, 0) + 1` (total; inserts missing keys), as in
the advisory quota loop `views.py:140-144`. -/
def bumpGet (m : List (Nat × Nat)) (k : Nat) : List (Nat × Nat) :=
  upsertA m k (getD0 m k + 1)

/-- Python `d[k] += 1` (raises `KeyError` on a missing key), as in the
finalize-time quota loop `views.py:171-175`. -/
def bumpKey : List (Nat × Nat) → Nat → Option (List (Nat × Nat))
  | [], _ => none
  | p :: ps, k =>
    if p.1 = k then some ((k, p.2 + 1) :: ps)
    else (bumpKey ps k).map (p :: ·)

/-- Advisory per-nine drive tallies, `views.py:136-144`: dicts seeded
with the current members, incremented with `.get`-defaulting access, so
a `DriveUsed` of a since-removed player grows the dict instead of
failing. -/
def advisoryCounts (members : List Nat) :
    List (Nat × Nat) → List (Nat × Nat) × List (Nat × Nat) → List (Nat × Nat) × List (Nat × Nat)
  | [], fb => fb
  | d :: ds, fb =>
    if d.1 ≤ 9 then advisoryCounts members ds (bumpGet fb.1 d.2, fb.2)
    else advisoryCounts members ds (fb.1, bumpGet fb.2 d.2)

/-- Finalize-time per-nine drive tallies, `views.py:167-175`: dicts
seeded with the current members, incremented with bare indexing, so a
`DriveUsed` of a since-removed player raises `KeyError` (`none`). -/
def strictCounts :
    List (Nat × Nat) → List (Nat × Nat) × List (Nat × Nat) → Option (List (Nat × Nat) × List (Nat × Nat))
  | [], fb => some fb
  | d :: ds, fb =>
    if d.1 ≤ 9 then
      match bumpKey fb.1 d.2 with
      | none => none
      | some f => strictCounts ds (f, fb.2)
    else
      match bumpKey fb.2 d.2 with
      | none => none
      | some b => strictCounts ds (fb.1, b)

def zeroCounts (members : List Nat) : List (Nat × Nat) :=
  members.map (fun p => (p, 0))

/-- The non-blocking quota advisory after a save, `views.py:128-157`. -/
def quotaWarnings (team : TeamState) (r : RoundState) : List Msg :=
  let fb := advisoryCounts team.members r.drives (zeroCounts team.members, zeroCounts team.members)
  let w1 :=
    if enteredFront r = 9 then
      let missing := team.members.filter (fun p => getD0 fb.1 p = 0)
      if missing.isEmpty then [] else [Msg.frontQuotaWarning missing]
    else []
  let w2 :=
    if enteredBack r = 9 then
      let missing := team.members.filter (fun p => getD0 fb.2 p = 0)
      if missing.isEmpty then [] else [Msg.backQuotaWarning missing]
    else []
  w1 ++ w2

/-- POST handling of `team_scorecard_view` (`views.py:68-195`), as a
function from the stored state and the request to the new stored state
and the emitted messages; `none` models an uncaught exception killing
the request — its sources are the `ValueError` of a digit-class
non-decimal stroke string in the save loop (checked here up front: the
loop dies at the first such field, and the partially-written state of
an aborted request is not modelled) and the `KeyError` in the
finalize-time quota loop. -/
def team_scorecard_post (ctx : Ctx) (team : TeamState) (r : RoundState)
    (post : CardPost) (tNow uId : Nat) : Option (RoundState × List Msg) :=
  if !(ctx.isStaff || ctx.isMember) then some (r, [Msg.forbidden])
  else
    let isFinal := r.finalizedAt.isSome
    let canEdit := (ctx.isStaff || ctx.memberCanScore) && !isFinal
    if post.action = "unlock" then
      if ctx.isStaff && isFinal then
        some ({ r with finalizedAt := none, finalizedBy := none }, [Msg.roundUnlocked])
      else some (r, [Msg.cannotUnlock])
    else if !canEdit then some (r, [Msg.locked])
    else if (List.range' 1 18).any
        (fun h => (parseStrokesChecked (post.holes h).strokes).isNone) then
      none
    else
      let r1 := applySave team post r
      let warns := quotaWarnings team r1
      if post.action = "finalize" then
        let he := countScored r1
        if he < 18 then some (r1, warns ++ [Msg.cannotFinalizeIncomplete he])
        else
          match strictCounts r1.drives (zeroCounts team.members, zeroCounts team.members) with
          | none => none
          | some fb =>
            let missF := team.members.filter (fun p => getD0 fb.1 p = 0)
            let missB := team.members.filter (fun p => getD0 fb.2 p = 0)
            if !missF.isEmpty || !missB.isEmpty then
              some (r1, warns
                ++ (if !missF.isEmpty then [Msg.frontMissingDrive missF] else [])
                ++ (if !missB.isEmpty then [Msg.backMissingDrive missB] else []))
            else
              some ({ r1 with finalizedAt := some tNow, finalizedBy := some uId },
                    warns ++ [Msg.finalized])
      else some (r1, warns ++ [Msg.saved])

/-- POST handling of the per-hole sequential view `hole_score`
(`views.py:961-1011`).  Note the unconditional
`Score.objects.get_or_create(round=rnd, hole=hole)` that runs before
the POST branch, and that strokes are saved before the drive player is
validated.  `none` models the uncaught `ValueError` of a digit-class
non-decimal stroke string. -/
def hole_score_post (ctx : Ctx) (team : TeamState) (r : RoundState)
    (hole : Nat) (go : String) (strokesRaw : String) (drivePid : Option Nat) :
    Option (RoundState × List Msg) :=
  if !(ctx.isStaff || ctx.isMember) then some (r, [Msg.forbidden])
  else
    let isFinal := r.finalizedAt.isSome
    let canEdit := (ctx.isStaff || ctx.memberCanScore) && !isFinal
    let r0 := ensureScore r hole
    if go = "card" then some (r0, [])
    else if !canEdit then some (r0, [Msg.locked])
    else
      match drivePid with
      | none => some (r0, [Msg.chooseDrive])
      | some pid =>
        match parseStrokesChecked strokesRaw with
        | none => none
        | some v =>
          let r1 := setStrokes r0 hole v
          if team.members.contains pid then
            some (upsertDrive r1 hole pid, [Msg.scoreRecorded])
          else some (r1, [Msg.invalidDriveSelection])

/-! ### Leaderboard engine (`_leaderboard_rows`, `views.py:259-347`) -/

/-- One leaderboard row (the dict built at `views.py:308-318`). -/
structure Row where
  teamName : String
  outT : Option Nat
  inT : Option Nat
  total : Option Nat
  toPar : Option Int
  toParStr : Option String
  holesEntered : Nat
  rank : Option String
deriving DecidableEq

/-- Formatting helper `fmt_to_par` (`views.py:285-288`) on a present value. -/
def fmtToPar (n : Int) : String :=
  if n = 0 then "E"
  else if 0 < n then "+" ++ toString n
  else toString n

/-- The Django annotation
`Sum(Case(When(<hole predicate>, then="score__strokes")))`: SQL `SUM`
over the non-null strokes of the holes matching the predicate, `NULL`
when no such value exists. -/
def sumStrokesWhere (scores : List (Nat × Option Nat)) (pred : Nat → Bool) : Option Nat :=
  let xs := scores.filterMap (fun q => if pred q.1 then q.2 else none)
  if xs.isEmpty then none else some xs.sum

/-- The non-null `(hole, strokes)` pairs
(`Score.objects.filter(round=r, strokes__isnull=False)`). -/
def scoredOf (scores : List (Nat × Option Nat)) : List (Nat × Nat) :=
  scores.filterMap (fun q => q.2.map (fun s => (q.1, s)))

/-- Build one leaderboard row for a round, `views.py:274-318`:
out/in totals via the `Sum(Case(...))` annotations, `to_par` as strokes
minus par summed over exactly the scored holes (`par_by_hole.get(h, 0)`),
everything absent when no hole is scored. -/
def mkRow (parBy : List (Nat × Nat)) (teamName : String) (r : RoundState) : Row :=
  let outT := sumStrokesWhere r.scores (fun h => decide (h ≤ 9))
  let inT := sumStrokesWhere r.scores (fun h => decide (10 ≤ h))
  let scored := scoredOf r.scores
  if scored.isEmpty then
    { teamName := teamName, outT := outT, inT := inT, total := none,
      toPar := none, toParStr := none, holesEntered := countScored r, rank := none }
  else
    let strokesSum : Nat := (scored.map (fun q => q.2)).sum
    let parSum : Nat := (scored.map (fun q => getD0 parBy q.1)).sum
    let toParVal : Int := (strokesSum : Int) - (parSum : Int)
    { teamName := teamName, outT := outT, inT := inT,
      total := some (outT.getD 0 + inT.getD 0),
      toPar := some toParVal, toParStr := some (fmtToPar toParVal),
      holesEntered := countScored r, rank := none }

/-- Lexicographic `≤` on Python strings (character lists). -/
def charListLe : List Char → List Char → Bool
  | [], _ => true
  | _ :: _, [] => false
  | a :: as, b :: bs => if a = b then charListLe as bs else decide (a < b)

/-- One level of a Python tuple comparison: the first differing
component decides, otherwise defer to the rest. -/
def lexStep (x y : Int) (rest : Bool) : Bool :=
  if x = y then rest else decide (x < y)

/-- The per-row component of the sort key tuple (`views.py:321-325`):
`(to_par is None, to_par or 10**9, total is None, total or 10**9, name)`. -/
def keyFlag {α : Type} (o : Option α) : Int := if o.isSome then 0 else 1

def rowKey1 (x : Row) : Int := keyFlag x.toPar
def rowKey2 (x : Row) : Int := x.toPar.getD (10 ^ 9)
def rowKey3 (x : Row) : Int := keyFlag x.total
def rowKey4 (x : Row) : Int := (x.total.map (fun n => (n : Int))).getD (10 ^ 9)

/-- The sort comparison of `rows.sort(key=...)` (`views.py:321-325`):
Python tuple `≤` on the five-component key. -/
def rowLE (a b : Row) : Bool :=
  lexStep (rowKey1 a) (rowKey1 b) <|
  lexStep (rowKey2 a) (rowKey2 b) <|
  lexStep (rowKey3 a) (rowKey3 b) <|
  lexStep (rowKey4 a) (rowKey4 b) <|
  charListLe a.teamName.data b.teamName.data

/-- The comparison `rowLE` as a relation, for use with the sorting library. -/
def rowLe (a b : Row) : Prop := rowLE a b = true

instance : DecidableRel rowLe := fun a b => instDecidableEqBool (rowLE a b) true

/-- The `rank_value` helper (`views.py:328-330`): `to_par` if present, else
`total`, else `None`. -/
def rankValue (x : Row) : Option Int :=
  match x.toPar with
  | some v => some v
  | none => x.total.map (fun n => (n : Int))

/-- The tie counter `freq = Counter(vals)` restricted to present values
(`views.py:332-333`). -/
def freqOf (rows : List Row) (v : Int) : Nat :=
  rows.countP (fun r => rankValue r == some v)

/-- The rank-assignment loop (`views.py:335-345`); `rows0` is the full
sorted list over which `freq` was computed, `idx` the 1-based position,
`place`/`lastVal` the loop state. -/
def assignRanks (rows0 : List Row) : Nat → Nat → Option Int → List Row → List Row
  | _, _, _, [] => []
  | idx, place, lastVal, r :: rs =>
    match rankValue r with
    | none => { r with rank := none } :: assignRanks rows0 (idx + 1) place lastVal rs
    | some v =>
      let place1 := if lastVal = some v then place else idx
      let tag := if 1 < freqOf rows0 v then "T-" ++ toString place1 else toString place1
      { r with rank := some tag } :: assignRanks rows0 (idx + 1) place1 (some v) rs

/-- The `_leaderboard_rows` function restricted to its algorithmic core: build a row
per round for the event date, sort by the key tuple (Python's
`list.sort` is a stable sort; a stable insertion sort computes the same
list), assign ranks.  `rounds` carries each round's team name together
with the stored `Score`/`DriveUsed` rows. -/
def leaderboard_rows (parBy : List (Nat × Nat)) (rounds : List (String × RoundState)) : List Row :=
  let rows := rounds.map (fun q => mkRow parBy q.1 q.2)
  let sorted := List.insertionSort rowLe rows
  assignRanks sorted 1 0 none sorted

/-- Number of `DriveUsed` rows of the round on holes `lo..hi` whose
player is `p` (the specification's per-nine drive tally). -/
def drivesOn (r : RoundState) (lo hi p : Nat) : Nat :=
  (r.drives.filter (fun q => decide (lo ≤ q.1) && decide (q.1 ≤ hi) && q.2 == p)).length

/-! ## Association-list lemmas -/

theorem lookupA_upsertA_self {α : Type} (l : List (Nat × α)) (k : Nat) (v : α) :
    lookupA (upsertA l k v) k = some v := by
  induction l with
  | nil => simp [upsertA, lookupA]
  | cons p ps ih =>
    by_cases h : p.1 = k
    · simp [upsertA, h, lookupA]
    · simp [upsertA, h, lookupA, ih]

theorem lookupA_upsertA_ne {α : Type} (l : List (Nat × α)) (k k' : Nat) (v : α)
    (h : k' ≠ k) : lookupA (upsertA l k v) k' = lookupA l k' := by
  have hk : k ≠ k' := Ne.symm h
  induction l with
  | nil => simp [upsertA, lookupA, hk]
  | cons p ps ih =>
    by_cases hp : p.1 = k
    · subst hp
      simp [upsertA, lookupA, hk]
    · simp only [upsertA, if_neg hp]
      by_cases hp' : p.1 = k'
      · simp [lookupA, hp']
      · simp [lookupA, hp', ih]

theorem lookupA_removeA_self {α : Type} (l : List (Nat × α)) (k : Nat) :
    lookupA (removeA l k) k = none := by
  induction l with
  | nil => simp [removeA, lookupA]
  | cons p ps ih =>
    by_cases hp : p.1 = k
    · simpa [removeA, List.filter_cons, hp] using ih
    · simpa [removeA, List.filter_cons, lookupA, hp] using ih

theorem lookupA_removeA_ne {α : Type} (l : List (Nat × α)) (k k' : Nat)
    (h : k' ≠ k) : lookupA (removeA l k) k' = lookupA l k' := by
  induction l with
  | nil => simp [removeA, lookupA]
  | cons p ps ih =>
    by_cases hp : p.1 = k
    · subst hp
      have hp' : p.1 ≠ k' := Ne.symm h
      simpa [removeA, List.filter_cons, lookupA, hp'] using ih
    · by_cases hp' : p.1 = k'
      · simp [removeA, List.filter_cons, lookupA, hp, hp', h]
      · simpa [removeA, List.filter_cons, lookupA, hp, hp'] using ih

theorem mem_upsertA {α : Type} {l : List (Nat × α)} {k : Nat} {v : α} {q : Nat × α}
    (hq : q ∈ upsertA l k v) : q ∈ l ∨ q = (k, v) := by
  induction l with
  | nil => simpa [upsertA] using hq
  | cons p ps ih =>
    by_cases hp : p.1 = k
    · simp only [upsertA, if_pos hp, List.mem_cons] at hq
      rcases hq with h | h
      · exact Or.inr h
      · exact Or.inl (List.mem_cons_of_mem _ h)
    · simp only [upsertA, if_neg hp, List.mem_cons] at hq
      rcases hq with h | h
      · exact Or.inl (h ▸ List.mem_cons_self _ _)
      · rcases ih h with h' | h'
        · exact Or.inl (List.mem_cons_of_mem _ h')
        · exact Or.inr h'

theorem mem_removeA {α : Type} {l : List (Nat × α)} {k : Nat} {q : Nat × α}
    (hq : q ∈ removeA l k) : q ∈ l :=
  List.mem_of_mem_filter hq

theorem keys_upsertA_subset {α : Type} {l : List (Nat × α)} {k : Nat} {v : α}
    {q : Nat × α} (hq : q ∈ upsertA l k v) : q.1 ∈ l.map Prod.fst ∨ q.1 = k := by
  rcases mem_upsertA hq with h | h
  · exact Or.inl (List.mem_map_of_mem Prod.fst h)
  · exact Or.inr (by simp [h])

theorem mem_keys_upsertA {α : Type} {l : List (Nat × α)} {k : Nat} {v : α}
    {x : Nat} (hx : x ∈ (upsertA l k v).map Prod.fst) :
    x ∈ l.map Prod.fst ∨ x = k := by
  rcases List.mem_map.mp hx with ⟨q, hq, hqx⟩
  rcases keys_upsertA_subset hq with h | h
  · exact Or.inl (hqx ▸ h)
  · exact Or.inr (hqx ▸ h)

theorem nodupKeys_upsertA {α : Type} {l : List (Nat × α)} (k : Nat) (v : α)
    (h : (l.map Prod.fst).Nodup) : ((upsertA l k v).map Prod.fst).Nodup := by
  induction l with
  | nil => simp [upsertA]
  | cons p ps ih =>
    simp only [List.map_cons, List.nodup_cons] at h
    by_cases hp : p.1 = k
    · subst hp
      have he : upsertA (p :: ps) p.1 v = (p.1, v) :: ps := by
        simp [upsertA]
      rw [he]
      simp only [List.map_cons, List.nodup_cons]
      exact ⟨h.1, h.2⟩
    · simp only [upsertA, if_neg hp, List.map_cons, List.nodup_cons]
      refine ⟨fun hmem => ?_, ih h.2⟩
      rcases mem_keys_upsertA hmem with h' | h'
      · exact h.1 h'
      · exact hp h'

theorem nodupKeys_removeA {α : Type} (l : List (Nat × α)) (k : Nat)
    (h : (l.map Prod.fst).Nodup) : ((removeA l k).map Prod.fst).Nodup :=
  ((List.filter_sublist l).map Prod.fst).nodup h

theorem lookupA_isSome_iff {α : Type} (l : List (Nat × α)) (k : Nat) :
    (lookupA l k).isSome ↔ k ∈ l.map Prod.fst := by
  induction l with
  | nil => simp [lookupA]
  | cons p ps ih =>
    by_cases hp : p.1 = k
    · simp [lookupA, hp]
    · have hp' : k ≠ p.1 := fun e => hp e.symm
      simp [lookupA, hp, ih, hp']

theorem lookupA_eq_some_of_mem {α : Type} {l : List (Nat × α)} {q : Nat × α}
    (hnd : (l.map Prod.fst).Nodup) (hq : q ∈ l) : lookupA l q.1 = some q.2 := by
  induction l with
  | nil => cases hq
  | cons p ps ih =>
    simp only [List.map_cons, List.nodup_cons] at hnd
    rcases List.mem_cons.mp hq with h | h
    · subst h
      simp [lookupA]
    · have hne : p.1 ≠ q.1 := fun e => hnd.1 (e ▸ List.mem_map_of_mem Prod.fst h)
      simp [lookupA, hne, ih hnd.2 h]

theorem mem_of_lookupA_eq_some {α : Type} {l : List (Nat × α)} {k : Nat} {v : α}
    (h : lookupA l k = some v) : (k, v) ∈ l := by
  induction l with
  | nil => simp [lookupA] at h
  | cons p ps ih =>
    by_cases hp : p.1 = k
    · simp only [lookupA, if_pos hp] at h
      have hv : p.2 = v := Option.some.inj h
      have hpe : p = (k, v) := by
        cases p
        simp_all
      exact hpe ▸ List.mem_cons_self _ _
    · simp only [lookupA, if_neg hp] at h
      exact List.mem_cons_of_mem _ (ih h)

/-! ## Save-loop characterization -/

/-- The net effect of one save-loop iteration on the hole's stored
drive: a valid member id replaces it, an invalid id leaves it alone, a
blank field deletes it. -/
def driveEffect (team : TeamState) (inp : HoleInput) (prev : Option Nat) : Option Nat :=
  match inp.drive with
  | some pid => if team.members.contains pid then some pid else prev
  | none => none

theorem driveEffect_idem (team : TeamState) (inp : HoleInput) (x : Option Nat) :
    driveEffect team inp (driveEffect team inp x) = driveEffect team inp x := by
  cases hd : inp.drive with
  | none => simp [driveEffect, hd]
  | some pid =>
    by_cases hm : pid ∈ team.members <;> simp [driveEffect, hd, hm]

theorem saveHole_finalized (team : TeamState) (post : CardPost) (r : RoundState) (h : Nat) :
    (saveHole team post r h).finalizedAt = r.finalizedAt ∧
      (saveHole team post r h).finalizedBy = r.finalizedBy := by
  cases hd : (post.holes h).drive with
  | none => simp [saveHole, hd, setStrokes, deleteDrive]
  | some pid =>
    by_cases hm : pid ∈ team.members <;>
      simp [saveHole, hd, hm, setStrokes, upsertDrive]

theorem saveHole_scores_self (team : TeamState) (post : CardPost) (r : RoundState) (h : Nat) :
    lookupA (saveHole team post r h).scores h = some (parseStrokes (post.holes h).strokes) := by
  cases hd : (post.holes h).drive with
  | none => simp [saveHole, hd, setStrokes, deleteDrive, lookupA_upsertA_self]
  | some pid =>
    by_cases hm : pid ∈ team.members <;>
      simp [saveHole, hd, hm, setStrokes, upsertDrive, lookupA_upsertA_self]

theorem saveHole_scores_ne (team : TeamState) (post : CardPost) (r : RoundState) (h h' : Nat)
    (hne : h' ≠ h) :
    lookupA (saveHole team post r h).scores h' = lookupA r.scores h' := by
  cases hd : (post.holes h).drive with
  | none => simp [saveHole, hd, setStrokes, deleteDrive, lookupA_upsertA_ne _ _ _ _ hne]
  | some pid =>
    by_cases hm : pid ∈ team.members <;>
      simp [saveHole, hd, hm, setStrokes, upsertDrive, lookupA_upsertA_ne _ _ _ _ hne]

theorem saveHole_drives_self (team : TeamState) (post : CardPost) (r : RoundState) (h : Nat) :
    lookupA (saveHole team post r h).drives h =
      driveEffect team (post.holes h) (lookupA r.drives h) := by
  cases hd : (post.holes h).drive with
  | none => simp [saveHole, hd, setStrokes, deleteDrive, driveEffect, lookupA_removeA_self]
  | some pid =>
    by_cases hm : pid ∈ team.members <;>
      simp [saveHole, hd, hm, setStrokes, upsertDrive, driveEffect, lookupA_upsertA_self]

theorem saveHole_drives_ne (team : TeamState) (post : CardPost) (r : RoundState) (h h' : Nat)
    (hne : h' ≠ h) :
    lookupA (saveHole team post r h).drives h' = lookupA r.drives h' := by
  cases hd : (post.holes h).drive with
  | none => simp [saveHole, hd, setStrokes, deleteDrive, lookupA_removeA_ne _ _ _ hne]
  | some pid =>
    by_cases hm : pid ∈ team.members <;>
      simp [saveHole, hd, hm, setStrokes, upsertDrive, lookupA_upsertA_ne _ _ _ _ hne]

theorem foldSave_finalized (team : TeamState) (post : CardPost) (ns : List Nat) (r : RoundState) :
    (ns.foldl (saveHole team post) r).finalizedAt = r.finalizedAt ∧
      (ns.foldl (saveHole team post) r).finalizedBy = r.finalizedBy := by
  induction ns generalizing r with
  | nil => exact ⟨rfl, rfl⟩
  | cons n ns ih =>
    have h1 := saveHole_finalized team post r n
    have h2 := ih (saveHole team post r n)
    exact ⟨h2.1.trans h1.1, h2.2.trans h1.2⟩

theorem foldSave_scores (team : TeamState) (post : CardPost) (ns : List Nat)
    (r : RoundState) (h : Nat) :
    lookupA (ns.foldl (saveHole team post) r).scores h =
      if h ∈ ns then some (parseStrokes (post.holes h).strokes)
      else lookupA r.scores h := by
  induction ns generalizing r with
  | nil => simp
  | cons n ns ih =>
    by_cases hn : h = n
    · subst hn
      rw [List.foldl_cons, ih]
      by_cases hmem : h ∈ ns
      · simp [hmem]
      · simp [hmem, saveHole_scores_self]
    · rw [List.foldl_cons, ih]
      by_cases hmem : h ∈ ns
      · simp [hmem, hn]
      · simp [hmem, hn, saveHole_scores_ne team post r n h hn]

theorem foldSave_drives (team : TeamState) (post : CardPost) (ns : List Nat)
    (r : RoundState) (h : Nat) :
    lookupA (ns.foldl (saveHole team post) r).drives h =
      if h ∈ ns then driveEffect team (post.holes h) (lookupA r.drives h)
      else lookupA r.drives h := by
  induction ns generalizing r with
  | nil => simp
  | cons n ns ih =>
    by_cases hn : h = n
    · subst hn
      rw [List.foldl_cons, ih]
      by_cases hmem : h ∈ ns
      · simp [hmem, saveHole_drives_self, driveEffect_idem]
      · simp [hmem, saveHole_drives_self]
    · rw [List.foldl_cons, ih]
      by_cases hmem : h ∈ ns
      · simp [hmem, saveHole_drives_ne team post r n h hn]
      · simp [hmem, hn, saveHole_drives_ne team post r n h hn]

theorem scores_saveHole (team : TeamState) (post : CardPost) (r : RoundState) (h : Nat) :
    (saveHole team post r h).scores =
      upsertA r.scores h (parseStrokes (post.holes h).strokes) := by
  cases hd : (post.holes h).drive with
  | none => simp [saveHole, hd, setStrokes, deleteDrive]
  | some pid =>
    by_cases hm : pid ∈ team.members <;>
      simp [saveHole, hd, hm, setStrokes, upsertDrive]

theorem mem_scores_saveHole {team : TeamState} {post : CardPost} {r : RoundState} {h : Nat}
    {q : Nat × Option Nat} (hq : q ∈ (saveHole team post r h).scores) :
    q ∈ r.scores ∨ q.1 = h := by
  rw [scores_saveHole] at hq
  rcases mem_upsertA hq with h' | h'
  · exact Or.inl h'
  · exact Or.inr (by simp [h'])

theorem mem_drives_saveHole {team : TeamState} {post : CardPost} {r : RoundState} {h : Nat}
    {q : Nat × Nat} (hq : q ∈ (saveHole team post r h).drives) :
    q ∈ r.drives ∨ (q.1 = h ∧ q.2 ∈ team.members) := by
  cases hd : (post.holes h).drive with
  | none =>
    have hdr : (saveHole team post r h).drives = removeA r.drives h := by
      simp [saveHole, hd, setStrokes, deleteDrive]
    rw [hdr] at hq
    exact Or.inl (mem_removeA hq)
  | some pid =>
    by_cases hm : pid ∈ team.members
    · have hdr : (saveHole team post r h).drives = upsertA r.drives h pid := by
        simp [saveHole, hd, hm, setStrokes, upsertDrive]
      rw [hdr] at hq
      rcases mem_upsertA hq with h' | h'
      · exact Or.inl h'
      · exact Or.inr ⟨by simp [h'], by rw [h']; exact hm⟩
    · have hdr : (saveHole team post r h).drives = r.drives := by
        simp [saveHole, hd, hm, setStrokes]
      rw [hdr] at hq
      exact Or.inl hq

theorem nodupKeys_scores_saveHole (team : TeamState) (post : CardPost) (r : RoundState) (h : Nat)
    (hnd : (r.scores.map Prod.fst).Nodup) :
    ((saveHole team post r h).scores.map Prod.fst).Nodup := by
  rw [scores_saveHole]
  exact nodupKeys_upsertA _ _ hnd

theorem mem_scores_foldSave {team : TeamState} {post : CardPost} {ns : List Nat}
    {r : RoundState} {q : Nat × Option Nat}
    (hq : q ∈ (ns.foldl (saveHole team post) r).scores) :
    q ∈ r.scores ∨ q.1 ∈ ns := by
  induction ns generalizing r with
  | nil => exact Or.inl hq
  | cons n ns ih =>
    rcases ih hq with h' | h'
    · rcases mem_scores_saveHole h' with h'' | h''
      · exact Or.inl h''
      · exact Or.inr (by simp [h''])
    · exact Or.inr (List.mem_cons_of_mem _ h')

theorem mem_drives_foldSave {team : TeamState} {post : CardPost} {ns : List Nat}
    {r : RoundState} {q : Nat × Nat}
    (hq : q ∈ (ns.foldl (saveHole team post) r).drives) :
    q ∈ r.drives ∨ (q.1 ∈ ns ∧ q.2 ∈ team.members) := by
  induction ns generalizing r with
  | nil => exact Or.inl hq
  | cons n ns ih =>
    rcases ih hq with h' | h'
    · rcases mem_drives_saveHole h' with h'' | h''
      · exact Or.inl h''
      · exact Or.inr ⟨by simp [h''.1], h''.2⟩
    · exact Or.inr ⟨List.mem_cons_of_mem _ h'.1, h'.2⟩

theorem nodupKeys_scores_foldSave (team : TeamState) (post : CardPost) (ns : List Nat)
    (r : RoundState) (hnd : (r.scores.map Prod.fst).Nodup) :
    ((ns.foldl (saveHole team post) r).scores.map Prod.fst).Nodup := by
  induction ns generalizing r with
  | nil => exact hnd
  | cons n ns ih => exact ih _ (nodupKeys_scores_saveHole team post r n hnd)

theorem applySave_scores (team : TeamState) (post : CardPost) (r : RoundState) (h : Nat)
    (hh : h ∈ List.range' 1 18) :
    lookupA (applySave team post r).scores h =
      some (parseStrokes (post.holes h).strokes) := by
  rw [applySave, foldSave_scores, if_pos hh]

theorem applySave_drives (team : TeamState) (post : CardPost) (r : RoundState) (h : Nat)
    (hh : h ∈ List.range' 1 18) :
    lookupA (applySave team post r).drives h =
      driveEffect team (post.holes h) (lookupA r.drives h) := by
  rw [applySave, foldSave_drives, if_pos hh]

/-! ## Counting lemmas -/

/-- A round whose `Score` rows sit on pairwise-distinct holes inside
1..18 has at least 18 rows with non-null strokes exactly when every one
of the 18 holes carries a non-null stroke value. -/
theorem countScored_ge_iff (l : List (Nat × Option Nat))
    (hnd : (l.map Prod.fst).Nodup)
    (hsub : ∀ q ∈ l, q.1 ∈ List.range' 1 18) :
    18 ≤ l.countP (fun q => q.2.isSome) ↔
      ∀ h ∈ List.range' 1 18, ∃ s, lookupA l h = some (some s) := by
  have hkf : ((l.filter (fun q => q.2.isSome)).map Prod.fst).Nodup :=
    ((List.filter_sublist l).map Prod.fst).nodup hnd
  have hcnt : l.countP (fun q => q.2.isSome) =
      ((l.filter (fun q => q.2.isSome)).map Prod.fst).length := by
    rw [List.countP_eq_length_filter, List.length_map]
  have hsubf : ∀ x ∈ (l.filter (fun q => q.2.isSome)).map Prod.fst,
      x ∈ List.range' 1 18 := by
    intro x hx
    rcases List.mem_map.mp hx with ⟨q, hq, hqx⟩
    exact hqx ▸ hsub q (List.mem_of_mem_filter hq)
  have hcardR : (List.range' 1 18).toFinset.card = 18 := by decide
  constructor
  · intro hge h hh
    have hsubF : ((l.filter (fun q => q.2.isSome)).map Prod.fst).toFinset ⊆
        (List.range' 1 18).toFinset := by
      intro x hx
      exact List.mem_toFinset.mpr (hsubf x (List.mem_toFinset.mp hx))
    have hcardF : ((l.filter (fun q => q.2.isSome)).map Prod.fst).toFinset.card =
        ((l.filter (fun q => q.2.isSome)).map Prod.fst).length :=
      List.toFinset_card_of_nodup hkf
    have heq : ((l.filter (fun q => q.2.isSome)).map Prod.fst).toFinset =
        (List.range' 1 18).toFinset := by
      refine Finset.eq_of_subset_of_card_le hsubF ?_
      rw [hcardR, hcardF, ← hcnt]
      exact hge
    have hhm : h ∈ (l.filter (fun q => q.2.isSome)).map Prod.fst := by
      rw [← List.mem_toFinset, heq, List.mem_toFinset]
      exact hh
    rcases List.mem_map.mp hhm with ⟨q, hq, hqh⟩
    have hqs : q.2.isSome := by
      have := List.of_mem_filter hq
      simpa using this
    rcases Option.isSome_iff_exists.mp hqs with ⟨s, hs⟩
    refine ⟨s, ?_⟩
    have hql : q ∈ l := List.mem_of_mem_filter hq
    have := lookupA_eq_some_of_mem hnd hql
    rw [hqh, hs] at this
    exact this
  · intro hall
    have hsubR : (List.range' 1 18).toFinset ⊆
        ((l.filter (fun q => q.2.isSome)).map Prod.fst).toFinset := by
      intro h hh
      have hh' := List.mem_toFinset.mp hh
      rcases hall h hh' with ⟨s, hs⟩
      have hmem : (h, some s) ∈ l := mem_of_lookupA_eq_some hs
      have : (h, some s) ∈ l.filter (fun q => q.2.isSome) :=
        List.mem_filter.mpr ⟨hmem, by simp⟩
      exact List.mem_toFinset.mpr (List.mem_map.mpr ⟨(h, some s), this, rfl⟩)
    have := Finset.card_le_card hsubR
    rw [hcardR, List.toFinset_card_of_nodup hkf] at this
    rw [hcnt]
    exact this

/-- Reading `d.get(k, 0)` over the member-seeded zero dict gives zero everywhere. -/
theorem getD0_zeroCounts (members : List Nat) (p : Nat) :
    getD0 (zeroCounts members) p = 0 := by
  induction members with
  | nil => simp [zeroCounts, getD0, lookupA]
  | cons m ms ih =>
    by_cases hm : m = p
    · simp [zeroCounts, getD0, lookupA, hm]
    · simpa [zeroCounts, getD0, lookupA, hm] using ih

theorem keys_zeroCounts (members : List Nat) :
    (zeroCounts members).map Prod.fst = members := by
  induction members with
  | nil => rfl
  | cons m ms ih =>
    simp only [zeroCounts, List.map_cons, List.map_map] at ih ⊢
    simp [ih]

/-- Python `d[k] += 1` succeeds exactly on present keys, bumps that
key's value and leaves every other key's value alone. -/
theorem bumpKey_spec (m : List (Nat × Nat)) (k : Nat) (hk : k ∈ m.map Prod.fst) :
    ∃ m', bumpKey m k = some m' ∧
      m'.map Prod.fst = m.map Prod.fst ∧
      getD0 m' k = getD0 m k + 1 ∧
      ∀ k', k' ≠ k → getD0 m' k' = getD0 m k' := by
  induction m with
  | nil => cases hk
  | cons p ps ih =>
    by_cases hp : p.1 = k
    · refine ⟨(k, p.2 + 1) :: ps, by simp [bumpKey, hp], by simp [hp], ?_, ?_⟩
      · simp [getD0, lookupA, hp]
      · intro k' hk'
        simp [getD0, lookupA, hp, fun e : k = k' => hk' e.symm, Ne.symm hk']
    · have hk' : k ∈ ps.map Prod.fst := by
        rcases List.mem_map.mp hk with ⟨q, hq, hqk⟩
        rcases List.mem_cons.mp hq with h | h
        · exact absurd (h ▸ hqk) hp
        · exact List.mem_map.mpr ⟨q, h, hqk⟩
      rcases ih hk' with ⟨m', hm', hkeys, hself, hother⟩
      refine ⟨p :: m', by simp [bumpKey, hp, hm'], by simp [hkeys], ?_, ?_⟩
      · simp only [getD0, lookupA, if_neg hp]
        simpa [getD0] using hself
      · intro k'' hk''
        by_cases hpk : p.1 = k''
        · simp [getD0, lookupA, hpk]
        · simp only [getD0, lookupA, if_neg hpk]
          simpa [getD0] using hother k'' hk''

/-- The finalize-time tally loop succeeds when every `DriveUsed` names
a seeded key, and then computes for each key the number of processed
drives on each nine. -/
theorem strictCounts_spec (ds : List (Nat × Nat)) (f b : List (Nat × Nat))
    (hf : ∀ q ∈ ds, q.2 ∈ f.map Prod.fst)
    (hb : ∀ q ∈ ds, q.2 ∈ b.map Prod.fst) :
    ∃ f' b', strictCounts ds (f, b) = some (f', b') ∧
      (∀ p, getD0 f' p = getD0 f p +
        ds.countP (fun q => decide (q.1 ≤ 9) && q.2 == p)) ∧
      (∀ p, getD0 b' p = getD0 b p +
        ds.countP (fun q => !decide (q.1 ≤ 9) && q.2 == p)) := by
  induction ds generalizing f b with
  | nil =>
    exact ⟨f, b, rfl, fun p => by simp, fun p => by simp⟩
  | cons d ds ih =>
    by_cases hnine : d.1 ≤ 9
    · rcases bumpKey_spec f d.2 (hf d (List.mem_cons_self _ _)) with
        ⟨f1, hf1, hkeys, hself, hother⟩
      have hf' : ∀ q ∈ ds, q.2 ∈ f1.map Prod.fst := by
        intro q hq
        rw [hkeys]
        exact hf q (List.mem_cons_of_mem _ hq)
      have hb' : ∀ q ∈ ds, q.2 ∈ b.map Prod.fst :=
        fun q hq => hb q (List.mem_cons_of_mem _ hq)
      rcases ih f1 b hf' hb' with ⟨f', b', hrec, hcf, hcb⟩
      refine ⟨f', b', ?_, ?_, ?_⟩
      · simp [strictCounts, hnine, hf1, hrec]
      · intro p
        rw [hcf p]
        by_cases hp : d.2 = p
        · subst hp
          rw [hself]
          simp [List.countP_cons, hnine]
          omega
        · rw [hother p (fun e => hp e.symm)]
          simp [List.countP_cons, hnine, hp]
      · intro p
        rw [hcb p]
        simp [List.countP_cons, hnine]
    · rcases bumpKey_spec b d.2 (hb d (List.mem_cons_self _ _)) with
        ⟨b1, hb1, hkeys, hself, hother⟩
      have hf' : ∀ q ∈ ds, q.2 ∈ f.map Prod.fst :=
        fun q hq => hf q (List.mem_cons_of_mem _ hq)
      have hb' : ∀ q ∈ ds, q.2 ∈ b1.map Prod.fst := by
        intro q hq
        rw [hkeys]
        exact hb q (List.mem_cons_of_mem _ hq)
      rcases ih f b1 hf' hb' with ⟨f', b', hrec, hcf, hcb⟩
      refine ⟨f', b', ?_, ?_, ?_⟩
      · simp [strictCounts, hnine, hb1, hrec]
      · intro p
        rw [hcf p]
        simp [List.countP_cons, hnine]
      · intro p
        rw [hcb p]
        by_cases hp : d.2 = p
        · subst hp
          rw [hself]
          simp [List.countP_cons, hnine]
          omega
        · rw [hother p (fun e => hp e.symm)]
          simp [List.countP_cons, hnine, hp]


/-! ## Control flow of the POST handlers -/

theorem quotaWarnings_no_error (team : TeamState) (r : RoundState) :
    ∀ m ∈ quotaWarnings team r, m.isError = false := by
  intro m hm
  simp only [quotaWarnings] at hm
  rcases List.mem_append.mp hm with h | h <;>
  · split at h
    · split at h
      · cases h
      · rw [List.mem_singleton.mp h]
        rfl
    · cases h

/-- When every submitted stroke field parses without a `ValueError`,
the save loop's crash gate is down. -/
theorem parseGate_false (post : CardPost)
    (hparse : ∀ h ∈ List.range' 1 18,
      (parseStrokesChecked (post.holes h).strokes).isSome = true) :
    (List.range' 1 18).any
      (fun h => (parseStrokesChecked (post.holes h).strokes).isNone) = false := by
  rw [List.any_eq_false]
  intro h hh hnone
  have hs := hparse h hh
  rw [Option.isNone_iff_eq_none.mp hnone] at hs
  cases hs

/-- On an `OPEN` round, with view and edit rights and no stroke field
raising `ValueError`, a plain save applies the save loop and reports
the advisory warnings plus "Saved." -/
theorem team_scorecard_post_save (ctx : Ctx) (team : TeamState) (r : RoundState)
    (post : CardPost) (tNow uId : Nat)
    (hview : (ctx.isStaff || ctx.isMember) = true)
    (hedit : (ctx.isStaff || ctx.memberCanScore) = true)
    (hopen : r.finalizedAt = none)
    (ha : post.action = "save")
    (hparse : ∀ h ∈ List.range' 1 18,
      (parseStrokesChecked (post.holes h).strokes).isSome = true) :
    team_scorecard_post ctx team r post tNow uId =
      some (applySave team post r,
            quotaWarnings team (applySave team post r) ++ [Msg.saved]) := by
  unfold team_scorecard_post
  rw [ha, hopen, hview]
  simp [hedit, parseGate_false post hparse]

/-- On an `OPEN` round, with view and edit rights and no stroke field
raising `ValueError`, a finalize request runs the save loop and then
the finalize checks of `views.py:160-192`. -/
theorem team_scorecard_post_finalize (ctx : Ctx) (team : TeamState) (r : RoundState)
    (post : CardPost) (tNow uId : Nat)
    (hview : (ctx.isStaff || ctx.isMember) = true)
    (hedit : (ctx.isStaff || ctx.memberCanScore) = true)
    (hopen : r.finalizedAt = none)
    (ha : post.action = "finalize")
    (hparse : ∀ h ∈ List.range' 1 18,
      (parseStrokesChecked (post.holes h).strokes).isSome = true) :
    team_scorecard_post ctx team r post tNow uId =
      (let r1 := applySave team post r
       let warns := quotaWarnings team r1
       let he := countScored r1
       if he < 18 then some (r1, warns ++ [Msg.cannotFinalizeIncomplete he])
       else
         match strictCounts r1.drives (zeroCounts team.members, zeroCounts team.members) with
         | none => none
         | some fb =>
           let missF := team.members.filter (fun p => getD0 fb.1 p = 0)
           let missB := team.members.filter (fun p => getD0 fb.2 p = 0)
           if !missF.isEmpty || !missB.isEmpty then
             some (r1, warns
               ++ (if !missF.isEmpty then [Msg.frontMissingDrive missF] else [])
               ++ (if !missB.isEmpty then [Msg.backMissingDrive missB] else []))
           else
             some ({ r1 with finalizedAt := some tNow, finalizedBy := some uId },
                   warns ++ [Msg.finalized])) := by
  unfold team_scorecard_post
  rw [ha, hopen, hview]
  simp [hedit, parseGate_false post hparse]

theorem drives_ensureScore (r : RoundState) (h : Nat) :
    (ensureScore r h).drives = r.drives := by
  unfold ensureScore
  split <;> rfl

theorem drives_setStrokes (r : RoundState) (h : Nat) (v : Option Nat) :
    (setStrokes r h v).drives = r.drives := rfl

/-! ## Claims -/

/-- C2: once a round is `FINAL`, the full-card POST with any non-unlock
action and the per-hole POST with any inputs leave the stored round
unchanged; the unlock action succeeds only for a staff actor and then
clears exactly the two finalize fields. -/
theorem c2_final_round_locked (ctx : Ctx) (team : TeamState) (r : RoundState)
    (tNow uId ft hole : Nat)
    (hfin : r.finalizedAt = some ft)
    (hrows : ∀ h ∈ List.range' 1 18, (lookupA r.scores h).isSome = true)
    (hhole : hole ∈ List.range' 1 18) :
    (∀ post : CardPost, post.action ≠ "unlock" →
      ∃ msgs, team_scorecard_post ctx team r post tNow uId = some (r, msgs)) ∧
    (∀ go sraw dpid, ∃ msgs,
      hole_score_post ctx team r hole go sraw dpid = some (r, msgs)) ∧
    (∀ post : CardPost, post.action = "unlock" →
      (ctx.isStaff = true →
        team_scorecard_post ctx team r post tNow uId =
          some ({ r with finalizedAt := none, finalizedBy := none },
                [Msg.roundUnlocked])) ∧
      (ctx.isStaff = false →
        ∃ msgs, team_scorecard_post ctx team r post tNow uId = some (r, msgs))) := by
  have hens : ensureScore r hole = r := by
    unfold ensureScore
    rw [if_pos (hrows hole hhole)]
  refine ⟨?_, ?_, ?_⟩
  · intro post hne
    by_cases hv : (ctx.isStaff || ctx.isMember) = true
    · exact ⟨[Msg.locked], by simp [team_scorecard_post, hv, hfin, hne]⟩
    · have hv' : (ctx.isStaff || ctx.isMember) = false := by
        simpa using hv
      exact ⟨[Msg.forbidden], by simp [team_scorecard_post, hv']⟩
  · intro go sraw dpid
    by_cases hv : (ctx.isStaff || ctx.isMember) = true
    · by_cases hgo : go = "card"
      · exact ⟨[], by simp [hole_score_post, hv, hens, hgo]⟩
      · exact ⟨[Msg.locked], by simp [hole_score_post, hv, hfin, hens, hgo]⟩
    · have hv' : (ctx.isStaff || ctx.isMember) = false := by
        simpa using hv
      exact ⟨[Msg.forbidden], by simp [hole_score_post, hv']⟩
  · intro post ha
    constructor
    · intro hst
      simp [team_scorecard_post, ha, hst, hfin]
    · intro hst
      by_cases hm : ctx.isMember = true
      · exact ⟨[Msg.cannotUnlock], by simp [team_scorecard_post, ha, hst, hm, hfin]⟩
      · have hm' : ctx.isMember = false := by
          simpa using hm
        exact ⟨[Msg.forbidden], by simp [team_scorecard_post, hst, hm']⟩

theorem c2_witness :
    ∃ msgs, hole_score_post ⟨true, false, false⟩ ⟨[1]⟩
        ⟨[(1, some 4), (2, some 4), (3, some 4), (4, some 4), (5, some 4),
          (6, some 4), (7, some 4), (8, some 4), (9, some 4), (10, some 4),
          (11, some 4), (12, some 4), (13, some 4), (14, some 4), (15, some 4),
          (16, some 4), (17, some 4), (18, some 4)], [(1, 1), (10, 1)],
          some 7, some 5⟩ 4 ("save") ("3") (some 1) =
      some (⟨[(1, some 4), (2, some 4), (3, some 4), (4, some 4), (5, some 4),
        (6, some 4), (7, some 4), (8, some 4), (9, some 4), (10, some 4),
        (11, some 4), (12, some 4), (13, some 4), (14, some 4), (15, some 4),
        (16, some 4), (17, some 4), (18, some 4)], [(1, 1), (10, 1)],
        some 7, some 5⟩, msgs) :=
  (c2_final_round_locked ⟨true, false, false⟩ ⟨[1]⟩ _ 0 0 7 4 rfl
    (by decide) (by decide)).2.1 ("save") ("3") (some 1)

/-- C6 (amended): a hole-write naming a non-member drive player leaves
that hole's stored `DriveUsed` unchanged and still applies the stroke
value; the per-hole sequential path surfaces a per-hole validation
error, but the full-card path surfaces no error message at all — the
invalid selection is silently ignored. -/
theorem c6_amended_invalid_drive (ctx : Ctx) (team : TeamState) (r : RoundState)
    (post : CardPost) (tNow uId h pid : Nat)
    (hview : (ctx.isStaff || ctx.isMember) = true)
    (hedit : (ctx.isStaff || ctx.memberCanScore) = true)
    (hopen : r.finalizedAt = none)
    (ha : post.action = "save")
    (hparse : ∀ h ∈ List.range' 1 18,
      (parseStrokesChecked (post.holes h).strokes).isSome = true)
    (hh : h ∈ List.range' 1 18)
    (hdrive : (post.holes h).drive = some pid)
    (hmem : pid ∉ team.members) :
    (∃ msgs, team_scorecard_post ctx team r post tNow uId =
        some (applySave team post r, msgs) ∧
      lookupA (applySave team post r).drives h = lookupA r.drives h ∧
      lookupA (applySave team post r).scores h =
        some (parseStrokes (post.holes h).strokes) ∧
      ∀ m ∈ msgs, m.isError = false) ∧
    (∀ go sraw, go ≠ "card" →
      (parseStrokesChecked sraw).isSome = true →
      hole_score_post ctx team r h go sraw (some pid) =
        some (setStrokes (ensureScore r h) h (parseStrokes sraw),
          [Msg.invalidDriveSelection]) ∧
      lookupA (setStrokes (ensureScore r h) h (parseStrokes sraw)).drives h =
        lookupA r.drives h ∧
      Msg.isError Msg.invalidDriveSelection = true) := by
  constructor
  · refine ⟨_,
      team_scorecard_post_save ctx team r post tNow uId hview hedit hopen ha hparse,
      ?_, applySave_scores team post r h hh, ?_⟩
    · rw [applySave_drives team post r h hh]
      simp [driveEffect, hdrive, hmem]
    · intro m hm
      rcases List.mem_append.mp hm with h' | h'
      · exact quotaWarnings_no_error team _ m h'
      · rw [List.mem_singleton.mp h']
        rfl
  · intro go sraw hgo hok
    rcases Option.isSome_iff_exists.mp hok with ⟨v, hv⟩
    have hpv : parseStrokes sraw = v := by
      simp [parseStrokes, hv]
    refine ⟨?_, ?_, rfl⟩
    · simp [hole_score_post, hview, hedit, hopen, hgo, hmem, hv, hpv]
    · rw [drives_setStrokes, drives_ensureScore]

theorem c6_counterexample :
    team_scorecard_post ⟨false, true, true⟩ ⟨[1, 2]⟩ ⟨[], [(5, 2)], none, none⟩
        ⟨"save", fun h => if h = 5 then ⟨"7", some 99⟩ else ⟨"", none⟩⟩ 0 0 =
      some (⟨[(1, none), (2, none), (3, none), (4, none), (5, some 7),
              (6, none), (7, none), (8, none), (9, none), (10, none),
              (11, none), (12, none), (13, none), (14, none), (15, none),
              (16, none), (17, none), (18, none)], [(5, 2)], none, none⟩,
            [Msg.saved]) ∧
    [Msg.saved].any Msg.isError = false := by
  exact ⟨rfl, rfl⟩

theorem c6_witness :
    Msg.isError Msg.invalidDriveSelection = true :=
  ((c6_amended_invalid_drive ⟨false, true, true⟩ ⟨[1, 2]⟩ ⟨[], [(5, 2)], none, none⟩
      ⟨"save", fun h => if h = 5 then ⟨"7", some 99⟩ else ⟨"", none⟩⟩ 0 0 5 99
      rfl rfl rfl rfl (by decide) (by decide) (by simp) (by decide)).2 ("save") ("7")
        (by decide) (by decide)).2.2

/-- C7: evaluation at the failing input — a `DriveUsed` row whose
player (99) is no longer on the team: the finalize-time tally raises
`KeyError` (the request dies, modelled as `none`), while the very same
state and inputs under a plain save complete, the advisory quota
computation succeeding and crediting the stale drive to no current
member (members 2 and 1 are still reported as missing a nine). -/
theorem c7_stale_drive_keyerror :
    team_scorecard_post ⟨false, true, true⟩ ⟨[1, 2]⟩ ⟨[], [(3, 99)], none, none⟩
        ⟨"finalize", fun h =>
          ⟨"4", if h = 3 then some 99 else if h ≤ 9 then some 1 else some 2⟩⟩
        100 5 = none ∧
    (team_scorecard_post ⟨false, true, true⟩ ⟨[1, 2]⟩ ⟨[], [(3, 99)], none, none⟩
        ⟨"save", fun h =>
          ⟨"4", if h = 3 then some 99 else if h ≤ 9 then some 1 else some 2⟩⟩
        100 5).map (fun q => q.2) =
      some [Msg.frontQuotaWarning [2], Msg.backQuotaWarning [1], Msg.saved] := by
  exact ⟨rfl, rfl⟩

/-- C8: evaluation at the failing input — the per-hole entry view,
reached with hole number 19 by a team member, creates a `Score` row
with hole 19 before any validation (even under the non-saving
"Scorecard" action), and a subsequent save stores strokes and a
`DriveUsed` on that out-of-range hole. -/
theorem c8_hole_19_score_created :
    hole_score_post ⟨false, true, true⟩ ⟨[1]⟩ ⟨[], [], none, none⟩ 19 ("card") ("") none =
      some (⟨[(19, none)], [], none, none⟩, []) ∧
    hole_score_post ⟨false, true, true⟩ ⟨[1]⟩ ⟨[], [], none, none⟩ 19 ("save") ("4") (some 1) =
      some (⟨[(19, some 4)], [(19, 1)], none, none⟩, [Msg.scoreRecorded]) := by
  exact ⟨rfl, rfl⟩

/-- C9: the claim says every non-numeric stroke input is normalized to
"no value" and the write completes without a fatal error.  That fails:
the guard is `raw.isdigit()` but the conversion is `int(raw)`, and
Python's `isdigit` accepts digit-class characters that `int` rejects —
`'²'.isdigit()` is `True` while `int('²')` raises `ValueError` — so a
stroke field of "²" (U+00B2) kills both write paths (`views.py:113`,
`views.py:996`) with an uncaught exception instead of storing null; a
non-decimal digit such as "٤" (U+0664) is moreover stored as the
number 4, not cleared.  The ASCII cases behave as claimed: "abc", ""
and "-3" normalize to null and the full-card save completes, and
" 12 " stores 12. -/
theorem c9_unicode_digit_valueerror :
    parseStrokesChecked ("²") = none ∧
    team_scorecard_post ⟨false, true, true⟩ ⟨[1]⟩ ⟨[], [], none, none⟩
        ⟨"save", fun h => if h = 1 then ⟨"²", some 1⟩ else ⟨"", none⟩⟩ 0 0 = none ∧
    hole_score_post ⟨false, true, true⟩ ⟨[1]⟩ ⟨[], [], none, none⟩
        1 ("save") ("²") (some 1) = none ∧
    parseStrokesChecked ("٤") = some (some 4) ∧
    parseStrokesChecked ("abc") = some none ∧
    parseStrokesChecked ("") = some none ∧
    parseStrokesChecked ("-3") = some none ∧
    parseStrokesChecked (" 12 ") = some (some 12) ∧
    team_scorecard_post ⟨false, true, true⟩ ⟨[1]⟩ ⟨[], [], none, none⟩
        ⟨"save", fun h => if h = 1 then ⟨"abc", some 1⟩ else ⟨"", none⟩⟩ 0 0 =
      some (⟨[(1, none), (2, none), (3, none), (4, none), (5, none),
              (6, none), (7, none), (8, none), (9, none), (10, none),
              (11, none), (12, none), (13, none), (14, none), (15, none),
              (16, none), (17, none), (18, none)], [(1, 1)], none, none⟩,
            [Msg.saved]) := by
  exact ⟨rfl, rfl, rfl, rfl, rfl, rfl, rfl, rfl, rfl⟩

/-- C10: after a permitted full-card save on an `OPEN` round, every one
of holes 1–18 has a `Score` row, holding exactly the parsed submitted
value — so blank or omitted holes exist with null strokes, and any
previously stored stroke for an omitted hole is overwritten with
null. -/
theorem c10_save_upserts_all_18 (ctx : Ctx) (team : TeamState) (r : RoundState)
    (post : CardPost) (tNow uId : Nat)
    (hview : (ctx.isStaff || ctx.isMember) = true)
    (hedit : (ctx.isStaff || ctx.memberCanScore) = true)
    (hopen : r.finalizedAt = none)
    (ha : post.action = "save")
    (hparse : ∀ h ∈ List.range' 1 18,
      (parseStrokesChecked (post.holes h).strokes).isSome = true) :
    ∃ msgs, team_scorecard_post ctx team r post tNow uId =
        some (applySave team post r, msgs) ∧
      ∀ h ∈ List.range' 1 18,
        lookupA (applySave team post r).scores h =
          some (parseStrokes (post.holes h).strokes) :=
  ⟨_, team_scorecard_post_save ctx team r post tNow uId hview hedit hopen ha hparse,
    fun h hh => applySave_scores team post r h hh⟩

theorem c10_witness :
    ∃ msgs, team_scorecard_post ⟨false, true, true⟩ ⟨[1]⟩
        ⟨[(7, some 6)], [], none, none⟩ ⟨"save", fun _ => ⟨"", none⟩⟩ 0 0 =
        some (applySave ⟨[1]⟩ ⟨"save", fun _ => ⟨"", none⟩⟩
          ⟨[(7, some 6)], [], none, none⟩, msgs) ∧
      ∀ h ∈ List.range' 1 18,
        lookupA (applySave ⟨[1]⟩ ⟨"save", fun _ => ⟨"", none⟩⟩
          ⟨[(7, some 6)], [], none, none⟩).scores h =
          some (parseStrokes ((⟨"save", fun _ => ⟨"", none⟩⟩ : CardPost).holes h).strokes) :=
  c10_save_upserts_all_18 ⟨false, true, true⟩ ⟨[1]⟩ ⟨[(7, some 6)], [], none, none⟩
    ⟨"save", fun _ => ⟨"", none⟩⟩ 0 0 rfl rfl rfl rfl (by decide)

theorem countFront_eq_drivesOn (r : RoundState) (p : Nat)
    (hdr : ∀ q ∈ r.drives, q.1 ∈ List.range' 1 18) :
    r.drives.countP (fun q => decide (q.1 ≤ 9) && q.2 == p) = drivesOn r 1 9 p := by
  rw [drivesOn, ← List.countP_eq_length_filter]
  refine List.countP_congr ?_
  intro q hq
  have h1 : 1 ≤ q.1 := (List.mem_range'_1.mp (hdr q hq)).1
  simp [h1]

theorem countBack_eq_drivesOn (r : RoundState) (p : Nat)
    (hdr : ∀ q ∈ r.drives, q.1 ∈ List.range' 1 18) :
    r.drives.countP (fun q => !decide (q.1 ≤ 9) && q.2 == p) = drivesOn r 10 18 p := by
  rw [drivesOn, ← List.countP_eq_length_filter]
  refine List.countP_congr ?_
  intro q hq
  have h18 : q.1 < 19 := (List.mem_range'_1.mp (hdr q hq)).2
  by_cases h9 : q.1 ≤ 9
  · have h10 : ¬10 ≤ q.1 := by omega
    simp [h9, h10]
  · have h10 : 10 ≤ q.1 := by omega
    have h18' : q.1 ≤ 18 := by omega
    simp [h9, h10, h18']

/-- C1 (amended): with edit rights on an `OPEN` round in a reachable
state (score rows on distinct holes 1–18, drives on holes 1–18 by
current members), finalize succeeds exactly when, after the enclosing
save loop, all 18 holes carry non-null strokes and every current member
has a drive on each nine; on failure both finalize fields stay null.
When the hole count is short, the error reports only the count of
entered holes (no hole or member enumeration); only when all 18 holes
are entered does the error enumerate exactly the members missing a
front-nine drive and exactly the members missing a back-nine drive. -/
theorem c1_amended_finalize (ctx : Ctx) (team : TeamState) (r : RoundState)
    (post : CardPost) (tNow uId : Nat)
    (hview : (ctx.isStaff || ctx.isMember) = true)
    (hedit : (ctx.isStaff || ctx.memberCanScore) = true)
    (hopen : r.finalizedAt = none)
    (hby : r.finalizedBy = none)
    (ha : post.action = "finalize")
    (hparse : ∀ h ∈ List.range' 1 18,
      (parseStrokesChecked (post.holes h).strokes).isSome = true)
    (hnd : (r.scores.map Prod.fst).Nodup)
    (hsc : ∀ q ∈ r.scores, q.1 ∈ List.range' 1 18)
    (hdh : ∀ q ∈ r.drives, q.1 ∈ List.range' 1 18)
    (hdm : ∀ q ∈ r.drives, q.2 ∈ team.members) :
    ∃ r2 msgs, team_scorecard_post ctx team r post tNow uId = some (r2, msgs) ∧
      (r2.finalizedAt.isSome = true ↔
        ((∀ h ∈ List.range' 1 18, ∃ s,
            lookupA (applySave team post r).scores h = some (some s)) ∧
         ∀ p ∈ team.members,
           1 ≤ drivesOn (applySave team post r) 1 9 p ∧
           1 ≤ drivesOn (applySave team post r) 10 18 p)) ∧
      (r2.finalizedAt.isSome = false →
        r2.finalizedAt = none ∧ r2.finalizedBy = none) ∧
      (r2.finalizedAt.isSome = true →
        r2 = { applySave team post r with
                 finalizedAt := some tNow, finalizedBy := some uId }) ∧
      (countScored (applySave team post r) < 18 →
        Msg.cannotFinalizeIncomplete (countScored (applySave team post r)) ∈ msgs) ∧
      (18 ≤ countScored (applySave team post r) →
        (team.members.filter
            (fun p => drivesOn (applySave team post r) 1 9 p = 0) ≠ [] →
          Msg.frontMissingDrive (team.members.filter
            (fun p => drivesOn (applySave team post r) 1 9 p = 0)) ∈ msgs) ∧
        (team.members.filter
            (fun p => drivesOn (applySave team post r) 10 18 p = 0) ≠ [] →
          Msg.backMissingDrive (team.members.filter
            (fun p => drivesOn (applySave team post r) 10 18 p = 0)) ∈ msgs)) := by
  have hres :=
    team_scorecard_post_finalize ctx team r post tNow uId hview hedit hopen ha hparse
  have hnd1 : ((applySave team post r).scores.map Prod.fst).Nodup :=
    nodupKeys_scores_foldSave team post (List.range' 1 18) r hnd
  have hsub1 : ∀ q ∈ (applySave team post r).scores, q.1 ∈ List.range' 1 18 := by
    intro q hq
    rcases mem_scores_foldSave hq with h' | h'
    · exact hsc q h'
    · exact h'
  have hdh1 : ∀ q ∈ (applySave team post r).drives, q.1 ∈ List.range' 1 18 := by
    intro q hq
    rcases mem_drives_foldSave hq with h' | h'
    · exact hdh q h'
    · exact h'.1
  have hdm1 : ∀ q ∈ (applySave team post r).drives, q.2 ∈ team.members := by
    intro q hq
    rcases mem_drives_foldSave hq with h' | h'
    · exact hdm q h'
    · exact h'.2
  have hfinAt : (applySave team post r).finalizedAt = none :=
    (foldSave_finalized team post (List.range' 1 18) r).1.trans hopen
  have hfinBy : (applySave team post r).finalizedBy = none :=
    (foldSave_finalized team post (List.range' 1 18) r).2.trans hby
  have hiff : 18 ≤ countScored (applySave team post r) ↔
      ∀ h ∈ List.range' 1 18, ∃ s,
        lookupA (applySave team post r).scores h = some (some s) :=
    countScored_ge_iff (applySave team post r).scores hnd1 hsub1
  by_cases hlt : countScored (applySave team post r) < 18
  · -- incomplete holes: count-only error, round stays OPEN
    refine ⟨applySave team post r,
      quotaWarnings team (applySave team post r) ++
        [Msg.cannotFinalizeIncomplete (countScored (applySave team post r))],
      by rw [hres]; simp [hlt], ?_, ?_, ?_, ?_, ?_⟩
    · rw [hfinAt]
      simp only [Option.isSome_none]
      constructor
      · intro h
        cases h
      · intro hall
        exact absurd (hiff.mpr hall.1) (by omega)
    · intro _
      exact ⟨hfinAt, hfinBy⟩
    · intro h
      rw [hfinAt] at h
      cases h
    · intro _
      exact List.mem_append.mpr (Or.inr (List.mem_singleton.mpr rfl))
    · intro hge
      exact absurd hge (by omega)
  · -- all 18 entered: the drive tallies decide
    have hge : 18 ≤ countScored (applySave team post r) := by omega
    have hfkeys : ∀ q ∈ (applySave team post r).drives,
        q.2 ∈ (zeroCounts team.members).map Prod.fst := by
      intro q hq
      rw [keys_zeroCounts]
      exact hdm1 q hq
    rcases strictCounts_spec (applySave team post r).drives
        (zeroCounts team.members) (zeroCounts team.members) hfkeys hfkeys with
      ⟨f', b', hscnt, hcf, hcb⟩
    have hcf' : ∀ p, getD0 f' p = drivesOn (applySave team post r) 1 9 p := by
      intro p
      rw [hcf p, getD0_zeroCounts, Nat.zero_add,
        countFront_eq_drivesOn _ _ hdh1]
    have hcb' : ∀ p, getD0 b' p = drivesOn (applySave team post r) 10 18 p := by
      intro p
      rw [hcb p, getD0_zeroCounts, Nat.zero_add,
        countBack_eq_drivesOn _ _ hdh1]
    have hmf : team.members.filter (fun p => getD0 f' p = 0) =
        team.members.filter (fun p => drivesOn (applySave team post r) 1 9 p = 0) :=
      List.filter_congr (fun p _ => by rw [hcf' p])
    have hmb : team.members.filter (fun p => getD0 b' p = 0) =
        team.members.filter (fun p => drivesOn (applySave team post r) 10 18 p = 0) :=
      List.filter_congr (fun p _ => by rw [hcb' p])
    by_cases hempty :
        team.members.filter
          (fun p => drivesOn (applySave team post r) 1 9 p = 0) = [] ∧
        team.members.filter
          (fun p => drivesOn (applySave team post r) 10 18 p = 0) = []
    · -- both nines covered: finalize succeeds
      refine ⟨{ applySave team post r with
                  finalizedAt := some tNow, finalizedBy := some uId },
        quotaWarnings team (applySave team post r) ++ [Msg.finalized],
        ?_, ?_, ?_, ?_, ?_, ?_⟩
      · rw [hres]
        have hnot : ¬countScored (applySave team post r) < 18 := hlt
        simp only [hnot, if_false, hscnt, hmf, hmb, hempty.1, hempty.2]
        simp
      · simp only [Option.isSome_some, true_iff]
        refine ⟨hiff.mp hge, ?_⟩
        intro p hp
        constructor
        · by_contra hzero
          have : p ∈ team.members.filter
              (fun p => drivesOn (applySave team post r) 1 9 p = 0) :=
            List.mem_filter.mpr ⟨hp, by simpa using Nat.eq_zero_of_not_pos hzero⟩
          rw [hempty.1] at this
          cases this
        · by_contra hzero
          have : p ∈ team.members.filter
              (fun p => drivesOn (applySave team post r) 10 18 p = 0) :=
            List.mem_filter.mpr ⟨hp, by simpa using Nat.eq_zero_of_not_pos hzero⟩
          rw [hempty.2] at this
          cases this
      · intro h
        cases h
      · intro _
        rfl
      · intro h
        exact absurd h hlt
      · intro _
        exact ⟨fun h => absurd hempty.1 h, fun h => absurd hempty.2 h⟩
    · -- a member is missing a nine: enumerated error, round stays OPEN
      have hne : (!(team.members.filter
            (fun p => drivesOn (applySave team post r) 1 9 p = 0)).isEmpty ||
          !(team.members.filter
            (fun p => drivesOn (applySave team post r) 10 18 p = 0)).isEmpty) = true := by
        rcases Decidable.not_and_iff_or_not.mp hempty with h | h <;>
          simp [List.isEmpty_iff, h]
      refine ⟨applySave team post r,
        (quotaWarnings team (applySave team post r) ++
          (if (!(team.members.filter
              (fun p => drivesOn (applySave team post r) 1 9 p = 0)).isEmpty) = true
           then [Msg.frontMissingDrive (team.members.filter
              (fun p => drivesOn (applySave team post r) 1 9 p = 0))] else [])) ++
        (if (!(team.members.filter
            (fun p => drivesOn (applySave team post r) 10 18 p = 0)).isEmpty) = true
         then [Msg.backMissingDrive (team.members.filter
            (fun p => drivesOn (applySave team post r) 10 18 p = 0))] else []),
        ?_, ?_, ?_, ?_, ?_, ?_⟩
      · rw [hres]
        have hnot : ¬countScored (applySave team post r) < 18 := hlt
        simp only [hnot, if_false, hscnt, hmf, hmb, hne, if_true]
      · rw [hfinAt]
        simp only [Option.isSome_none]
        constructor
        · intro h
          cases h
        · intro hall
          rcases Decidable.not_and_iff_or_not.mp hempty with h | h
          · rcases List.exists_mem_of_ne_nil _ h with ⟨p, hpmem⟩
            have hpf := List.mem_filter.mp hpmem
            have hz : drivesOn (applySave team post r) 1 9 p = 0 := by
              simpa using hpf.2
            have := (hall.2 p hpf.1).1
            omega
          · rcases List.exists_mem_of_ne_nil _ h with ⟨p, hpmem⟩
            have hpf := List.mem_filter.mp hpmem
            have hz : drivesOn (applySave team post r) 10 18 p = 0 := by
              simpa using hpf.2
            have := (hall.2 p hpf.1).2
            omega
      · intro _
        exact ⟨hfinAt, hfinBy⟩
      · intro h
        rw [hfinAt] at h
        cases h
      · intro h
        exact absurd h hlt
      · intro _
        constructor
        · intro hne'
          refine List.mem_append.mpr (Or.inl (List.mem_append.mpr (Or.inr ?_)))
          have hb' : (!(team.members.filter
              (fun p => drivesOn (applySave team post r) 1 9 p = 0)).isEmpty) = true := by
            simp [List.isEmpty_iff, hne']
          rw [if_pos hb']
          exact List.mem_singleton.mpr rfl
        · intro hne'
          refine List.mem_append.mpr (Or.inr ?_)
          have hb' : (!(team.members.filter
              (fun p => drivesOn (applySave team post r) 10 18 p = 0)).isEmpty) = true := by
            simp [List.isEmpty_iff, hne']
          rw [if_pos hb']
          exact List.mem_singleton.mpr rfl

/-- C1 counterexample: a finalize attempt on a round with nine scored
holes and no drives fails (round stays `OPEN`), and the emitted
messages are exactly an advisory warning plus the count-only error
"Cannot finalize: only 9/18 holes have scores" — no error enumerates
the missing holes (10–18) or the missing member (player 1, who has
zero drives on both nines). -/
theorem c1_counterexample :
    team_scorecard_post ⟨false, true, true⟩ ⟨[1]⟩ ⟨[], [], none, none⟩
        ⟨"finalize", fun h => if h ≤ 9 then ⟨"4", none⟩ else ⟨"", none⟩⟩ 100 5 =
      some (⟨[(1, some 4), (2, some 4), (3, some 4), (4, some 4), (5, some 4),
              (6, some 4), (7, some 4), (8, some 4), (9, some 4), (10, none),
              (11, none), (12, none), (13, none), (14, none), (15, none),
              (16, none), (17, none), (18, none)], [], none, none⟩,
            [Msg.frontQuotaWarning [1], Msg.cannotFinalizeIncomplete 9]) ∧
    Msg.frontMissingDrive [1] ∉
      [Msg.frontQuotaWarning [1], Msg.cannotFinalizeIncomplete 9] ∧
    Msg.backMissingDrive [1] ∉
      [Msg.frontQuotaWarning [1], Msg.cannotFinalizeIncomplete 9] ∧
    drivesOn ⟨[(1, some 4), (2, some 4), (3, some 4), (4, some 4), (5, some 4),
              (6, some 4), (7, some 4), (8, some 4), (9, some 4), (10, none),
              (11, none), (12, none), (13, none), (14, none), (15, none),
              (16, none), (17, none), (18, none)], [], none, none⟩ 1 9 1 = 0 := by
  exact ⟨rfl, by decide, by decide, rfl⟩

theorem c1_witness :
    ∃ r2 msgs, team_scorecard_post ⟨false, true, true⟩ ⟨[1]⟩ ⟨[], [], none, none⟩
        ⟨"finalize", fun _ => ⟨"4", some 1⟩⟩ 100 5 = some (r2, msgs) ∧
      r2.finalizedAt.isSome = true := by
  rcases c1_amended_finalize ⟨false, true, true⟩ ⟨[1]⟩ ⟨[], [], none, none⟩
      ⟨"finalize", fun _ => ⟨"4", some 1⟩⟩ 100 5 rfl rfl rfl rfl rfl (by decide)
      (by decide) (by decide) (by decide) (by decide) with
    ⟨r2, msgs, heq, hiff, hrest⟩
  refine ⟨r2, msgs, heq, hiff.mpr ⟨?_, by decide⟩⟩
  intro h hh
  exact ⟨4, (applySave_scores ⟨[1]⟩ ⟨"finalize", fun _ => ⟨"4", some 1⟩⟩
    ⟨[], [], none, none⟩ h hh).trans rfl⟩

/-! ## The sort order -/

theorem charListLe_total (s t : List Char) :
    charListLe s t = true ∨ charListLe t s = true := by
  induction s generalizing t with
  | nil => exact Or.inl rfl
  | cons a as ih =>
    cases t with
    | nil => exact Or.inr rfl
    | cons b bs =>
      by_cases hab : a = b
      · subst hab
        rcases ih bs with h | h
        · exact Or.inl (by simp [charListLe, h])
        · exact Or.inr (by simp [charListLe, h])
      · rcases lt_or_gt_of_ne hab with h | h
        · exact Or.inl (by simp [charListLe, hab, h])
        · exact Or.inr (by simp [charListLe, Ne.symm hab, h])

theorem charListLe_trans (s t u : List Char) (h1 : charListLe s t = true)
    (h2 : charListLe t u = true) : charListLe s u = true := by
  induction s generalizing t u with
  | nil => rfl
  | cons a as ih =>
    cases t with
    | nil => simp [charListLe] at h1
    | cons b bs =>
      cases u with
      | nil => simp [charListLe] at h2
      | cons c cs =>
        by_cases hab : a = b <;> by_cases hbc : b = c
        · have hac : a = c := hab.trans hbc
          simp only [charListLe, if_pos hab] at h1
          simp only [charListLe, if_pos hbc] at h2
          simp only [charListLe, if_pos hac]
          exact ih bs cs h1 h2
        · simp only [charListLe, if_neg hbc] at h2
          have h2' := of_decide_eq_true h2
          have hac : a < c := by rw [hab]; exact h2'
          simp [charListLe, ne_of_lt hac, hac]
        · simp only [charListLe, if_neg hab] at h1
          have h1' := of_decide_eq_true h1
          have hac : a < c := hbc ▸ h1'
          simp [charListLe, ne_of_lt hac, hac]
        · simp only [charListLe, if_neg hab] at h1
          simp only [charListLe, if_neg hbc] at h2
          have hac : a < c := lt_trans (of_decide_eq_true h1) (of_decide_eq_true h2)
          simp [charListLe, ne_of_lt hac, hac]

theorem lexStep_eq_true_iff (x y : Int) (R : Bool) :
    lexStep x y R = true ↔ x < y ∨ (x = y ∧ R = true) := by
  by_cases h : x = y
  · subst h
    simp [lexStep]
  · simp [lexStep, h]

theorem lexStep_total (x y : Int) (R S : Bool) (h : R = true ∨ S = true) :
    lexStep x y R = true ∨ lexStep y x S = true := by
  by_cases hxy : x = y
  · subst hxy
    simpa [lexStep] using h
  · have hor : x < y ∨ y < x := by omega
    rcases hor with h' | h'
    · exact Or.inl (by simp [lexStep, hxy, h'])
    · have hyx : ¬y = x := fun e => hxy e.symm
      exact Or.inr (by simp [lexStep, hyx, h'])

theorem lexStep_trans (x y z : Int) (R1 R2 R3 : Bool)
    (hR : R1 = true → R2 = true → R3 = true)
    (h1 : lexStep x y R1 = true) (h2 : lexStep y z R2 = true) :
    lexStep x z R3 = true := by
  have A := (lexStep_eq_true_iff x y R1).mp h1
  have B := (lexStep_eq_true_iff y z R2).mp h2
  refine (lexStep_eq_true_iff x z R3).mpr ?_
  rcases A with hA | ⟨hA, hR1⟩ <;> rcases B with hB | ⟨hB, hR2⟩
  · exact Or.inl (by omega)
  · exact Or.inl (by omega)
  · exact Or.inl (by omega)
  · exact Or.inr ⟨hA.trans hB, hR hR1 hR2⟩

theorem rowLE_total (a b : Row) : rowLE a b = true ∨ rowLE b a = true := by
  unfold rowLE
  exact lexStep_total _ _ _ _ (lexStep_total _ _ _ _ (lexStep_total _ _ _ _
    (lexStep_total _ _ _ _ (charListLe_total _ _))))

theorem rowLE_trans (a b c : Row) (h1 : rowLE a b = true) (h2 : rowLE b c = true) :
    rowLE a c = true := by
  unfold rowLE at h1 h2 ⊢
  refine lexStep_trans _ _ _ _ _ _ ?_ h1 h2
  intro g1 g2
  refine lexStep_trans _ _ _ _ _ _ ?_ g1 g2
  intro g3 g4
  refine lexStep_trans _ _ _ _ _ _ ?_ g3 g4
  intro g5 g6
  refine lexStep_trans _ _ _ _ _ _ ?_ g5 g6
  intro g7 g8
  exact charListLe_trans _ _ _ g7 g8

instance : IsTotal Row rowLe := ⟨fun a b => rowLE_total a b⟩

instance : IsTrans Row rowLe := ⟨fun a b c => rowLE_trans a b c⟩

/-- Modelled from the spec: the leaderboard sort key as §4.2 describes
it — primary `to_par` with absent values last and present values
ascending, secondary `total` with absent values last and present values
ascending, tertiary team name ascending. -/
def specNameLe (a b : Row) : Prop :=
  charListLe a.teamName.data b.teamName.data = true

def specTotalLe (a b : Row) : Prop :=
  match a.total, b.total with
  | none, none => specNameLe a b
  | none, some _ => False
  | some _, none => True
  | some x, some y => x < y ∨ (x = y ∧ specNameLe a b)

def specKeyLe (a b : Row) : Prop :=
  match a.toPar, b.toPar with
  | none, none => specTotalLe a b
  | none, some _ => False
  | some _, none => True
  | some x, some y => x < y ∨ (x = y ∧ specTotalLe a b)

/-- The code's tuple comparison and the specification's description of
the sort key agree on every pair of rows. -/
theorem rowLe_iff_specKeyLe (a b : Row) : rowLe a b ↔ specKeyLe a b := by
  unfold rowLe rowLE specKeyLe specTotalLe specNameLe rowKey1 rowKey2 rowKey3 rowKey4 keyFlag
  cases htp : a.toPar <;> cases htq : b.toPar <;>
    cases hta : a.total <;> cases htb : b.total <;>
    simp [lexStep_eq_true_iff, Nat.cast_lt, Nat.cast_inj]

/-! ## Rank assignment -/

theorem rankValue_rank (a : Row) (x : Option String) :
    rankValue { a with rank := x } = rankValue a := rfl

theorem specKeyLe_rank (a b : Row) (x y : Option String) (h : specKeyLe a b) :
    specKeyLe { a with rank := x } { b with rank := y } := h

theorem mkRow_shape (parBy : List (Nat × Nat)) (name : String) (r : RoundState) :
    (mkRow parBy name r).toPar = none → (mkRow parBy name r).total = none := by
  intro h
  by_cases hsc : (scoredOf r.scores).isEmpty = true
  · simp [mkRow, hsc]
  · simp [mkRow, hsc] at h

theorem rankValue_eq_toPar (a : Row) (h : a.toPar = none → a.total = none) :
    rankValue a = a.toPar := by
  cases htp : a.toPar with
  | some v => simp [rankValue, htp]
  | none => simp [rankValue, htp, h htp]

theorem length_assignRanks (L : List Row) (i p : Nat) (lv : Option Int) (l : List Row) :
    (assignRanks L i p lv l).length = l.length := by
  induction l generalizing i p lv with
  | nil => rfl
  | cons r rs ih =>
    cases hr : rankValue r <;>
      simp only [assignRanks, hr, List.length_cons, ih]

theorem mem_assignRanks {L : List Row} {i p : Nat} {lv : Option Int} {l : List Row} {b : Row}
    (hb : b ∈ assignRanks L i p lv l) : ∃ a ∈ l, ∃ x, b = { a with rank := x } := by
  induction l generalizing i p lv with
  | nil => cases hb
  | cons r rs ih =>
    cases hr : rankValue r with
    | none =>
      simp only [assignRanks, hr] at hb
      rcases List.mem_cons.mp hb with h | h
      · exact ⟨r, List.mem_cons_self _ _, none, h⟩
      · rcases ih h with ⟨a, ha, x, hx⟩
        exact ⟨a, List.mem_cons_of_mem _ ha, x, hx⟩
    | some v =>
      simp only [assignRanks, hr] at hb
      rcases List.mem_cons.mp hb with h | h
      · exact ⟨r, List.mem_cons_self _ _, _, h⟩
      · rcases ih h with ⟨a, ha, x, hx⟩
        exact ⟨a, List.mem_cons_of_mem _ ha, x, hx⟩

theorem pairwise_specKeyLe_assignRanks {L : List Row} {i p : Nat} {lv : Option Int}
    {l : List Row} (h : List.Pairwise specKeyLe l) :
    List.Pairwise specKeyLe (assignRanks L i p lv l) := by
  induction l generalizing i p lv with
  | nil => exact List.Pairwise.nil
  | cons r rs ih =>
    rcases List.pairwise_cons.mp h with ⟨hall, hrs⟩
    cases hr : rankValue r with
    | none =>
      simp only [assignRanks, hr]
      refine List.Pairwise.cons ?_ (ih hrs)
      intro b hb
      rcases mem_assignRanks hb with ⟨a, ha, x, rfl⟩
      exact specKeyLe_rank r a none x (hall a ha)
    | some v =>
      simp only [assignRanks, hr]
      refine List.Pairwise.cons ?_ (ih hrs)
      intro b hb
      rcases mem_assignRanks hb with ⟨a, ha, x, rfl⟩
      exact specKeyLe_rank r a _ x (hall a ha)

theorem assignRanks_getQ (L : List Row) (i p : Nat) (lv : Option Int) (l : List Row)
    (j : Nat) :
    ∃ x, (assignRanks L i p lv l).get? j =
      (l.get? j).map (fun a => { a with rank := x }) := by
  induction l generalizing i p lv j with
  | nil => exact ⟨none, rfl⟩
  | cons r rs ih =>
    cases hr : rankValue r with
    | none =>
      cases j with
      | zero => exact ⟨none, by simp [assignRanks, hr]⟩
      | succ k =>
        rcases ih (i + 1) p lv k with ⟨x, hx⟩
        exact ⟨x, by simp only [assignRanks, hr, List.get?_cons_succ, hx]⟩
    | some v =>
      cases j with
      | zero =>
        exact ⟨some (if 1 < freqOf L v then
            "T-" ++ toString (if lv = some v then p else i)
          else toString (if lv = some v then p else i)),
          by simp [assignRanks, hr]⟩
      | succ k =>
        rcases ih (i + 1) (if lv = some v then p else i) (some v) k with ⟨x, hx⟩
        exact ⟨x, by simp only [assignRanks, hr, List.get?_cons_succ, hx]⟩

theorem freqOf_assignRanks (L : List Row) (i p : Nat) (lv : Option Int) (l : List Row)
    (v : Int) : freqOf (assignRanks L i p lv l) v = freqOf l v := by
  induction l generalizing i p lv with
  | nil => rfl
  | cons r rs ih =>
    cases hr : rankValue r with
    | none =>
      have ih' := ih (i + 1) p lv
      simp only [freqOf] at ih' ⊢
      simp only [assignRanks, hr, List.countP_cons, rankValue_rank, ih', hr]
    | some v0 =>
      have ih' := ih (i + 1) (if lv = some v0 then p else i) (some v0)
      simp only [freqOf] at ih' ⊢
      simp only [assignRanks, hr, List.countP_cons, rankValue_rank, ih', hr]

theorem findIdx_assignRanks (L : List Row) (i p : Nat) (lv : Option Int) (l : List Row)
    (v : Int) :
    (assignRanks L i p lv l).findIdx (fun a => rankValue a == some v) =
      l.findIdx (fun a => rankValue a == some v) := by
  induction l generalizing i p lv with
  | nil => rfl
  | cons r rs ih =>
    cases hr : rankValue r with
    | none =>
      have ih' := ih (i + 1) p lv
      simp only [assignRanks, hr, List.findIdx_cons, rankValue_rank, ih', hr]
    | some v0 =>
      have ih' := ih (i + 1) (if lv = some v0 then p else i) (some v0)
      simp only [assignRanks, hr, List.findIdx_cons, rankValue_rank, ih', hr]

theorem findIdx_append_cons {α : Type} (p : α → Bool) (pre : List α) (r : α) (rs : List α)
    (hpre : ∀ a ∈ pre, p a = false) (hr : p r = true) :
    (pre ++ r :: rs).findIdx p = pre.length := by
  induction pre with
  | nil => simp [List.findIdx_cons, hr]
  | cons a as ih =>
    have ha := hpre a (List.mem_cons_self _ _)
    simp only [List.cons_append, List.findIdx_cons, ha, cond_false,
      List.length_cons]
    rw [ih (fun b hb => hpre b (List.mem_cons_of_mem _ hb))]

theorem rowLe_toPar_le {a b : Row} (h : rowLe a b) {x y : Int}
    (ha : a.toPar = some x) (hb : b.toPar = some y) : x ≤ y := by
  rw [rowLe_iff_specKeyLe] at h
  unfold specKeyLe at h
  rw [ha, hb] at h
  rcases h with h | ⟨h, _⟩
  · exact le_of_lt h
  · exact le_of_eq h

theorem rankValue_some_toPar {a : Row} (hsh : a.toPar = none → a.total = none) {v : Int}
    (h : rankValue a = some v) : a.toPar = some v := by
  rw [rankValue_eq_toPar a hsh] at h
  exact h

/-- Correctness of the rank-assignment loop on a sorted row list whose
rows never carry a total without a to-par: every row with a present
rank value is displayed at the 1-based position of the first row
carrying that value, with a `T-` prefix exactly when the value is
shared; rows without a rank value get `none`. -/
theorem assignRanks_spec (L : List Row)
    (hshape : ∀ a ∈ L, a.toPar = none → a.total = none)
    (hsorted : List.Pairwise rowLe L) :
    ∀ (suf pre : List Row), L = pre ++ suf →
    ∀ (place : Nat) (lastVal : Option Int),
    (lastVal = none → ∀ a ∈ pre, rankValue a = none) →
    (∀ v0, lastVal = some v0 →
      place = L.findIdx (fun a => rankValue a == some v0) + 1 ∧
      (∃ a ∈ pre, rankValue a = some v0) ∧
      (∀ a ∈ pre, ∀ w, rankValue a = some w → w ≤ v0)) →
    ∀ j row outRow,
      suf.get? j = some row →
      (assignRanks L (pre.length + 1) place lastVal suf).get? j = some outRow →
      (rankValue row = none → outRow.rank = none) ∧
      (∀ v, rankValue row = some v →
        outRow.rank = some (if 1 < freqOf L v
          then "T-" ++ toString (L.findIdx (fun a => rankValue a == some v) + 1)
          else toString (L.findIdx (fun a => rankValue a == some v) + 1))) := by
  intro suf
  induction suf with
  | nil =>
    intro pre hL place lastVal hnone hsome j row outRow hrow hout
    cases hrow
  | cons r rs ih =>
    intro pre hL place lastVal hnone hsome j row outRow hrow hout
    have hs2 : List.Pairwise rowLe (pre ++ r :: rs) := hL ▸ hsorted
    rcases List.pairwise_append.mp hs2 with ⟨hpre_pw, hsuf_pw, hcross⟩
    have hrmemL : r ∈ L := by
      rw [hL]
      exact List.mem_append.mpr (Or.inr (List.mem_cons_self _ _))
    have hshr := hshape r hrmemL
    cases hr : rankValue r with
    | none =>
      cases j with
      | zero =>
        have hreq : r = row := by
          simpa using hrow
        subst hreq
        simp only [assignRanks, hr, List.get?_cons_zero] at hout
        have houtr := Option.some.inj hout
        constructor
        · intro _
          rw [← houtr]
        · intro v hv
          rw [hr] at hv
          cases hv
      | succ k =>
        have hrow' : rs.get? k = some row := by
          simpa using hrow
        have hout' : (assignRanks L ((pre ++ [r]).length + 1) place lastVal rs).get? k =
            some outRow := by
          have hlen : (pre ++ [r]).length + 1 = pre.length + 1 + 1 := by
            simp
          rw [hlen]
          simpa [assignRanks, hr] using hout
        refine ih (pre ++ [r]) (by rw [hL]; simp) place lastVal ?_ ?_ k row outRow hrow' hout'
        · intro hlv a ha
          rcases List.mem_append.mp ha with h' | h'
          · exact hnone hlv a h'
          · rw [List.mem_singleton.mp h']
            exact hr
        · intro v0 hlv
          rcases hsome v0 hlv with ⟨hp, ⟨aw, haw, hawv⟩, hbound⟩
          refine ⟨hp, ⟨aw, List.mem_append.mpr (Or.inl haw), hawv⟩, ?_⟩
          intro a ha w hw
          rcases List.mem_append.mp ha with h' | h'
          · exact hbound a h' w hw
          · rw [List.mem_singleton.mp h'] at hw
            rw [hr] at hw
            cases hw
    | some v =>
      have hpredr : (fun a => rankValue a == some v) r = true := by
        simp [hr]
      have hplace1 : (if lastVal = some v then place else pre.length + 1) =
          L.findIdx (fun a => rankValue a == some v) + 1 := by
        by_cases hlv : lastVal = some v
        · rw [if_pos hlv]
          exact (hsome v hlv).1
        · rw [if_neg hlv]
          have hpre_false : ∀ a ∈ pre, (fun a => rankValue a == some v) a = false := by
            intro a ha
            simp only [beq_eq_false_iff_ne, ne_eq]
            intro hav
            cases hlast : lastVal with
            | none => rw [hnone hlast a ha] at hav; cases hav
            | some v0 =>
              rcases hsome v0 hlast with ⟨_, ⟨aw, haw, hawv⟩, hbound⟩
              have hvle : v ≤ v0 := hbound a ha v hav
              have hawL : aw ∈ L := by
                rw [hL]
                exact List.mem_append.mpr (Or.inl haw)
              have hle : v0 ≤ v :=
                rowLe_toPar_le (hcross aw haw r (List.mem_cons_self _ _))
                  (rankValue_some_toPar (hshape aw hawL) hawv)
                  (rankValue_some_toPar hshr hr)
              have hveq : v = v0 := le_antisymm hvle hle
              rw [← hveq] at hlast
              exact hlv hlast
          have : L.findIdx (fun a => rankValue a == some v) = pre.length := by
            rw [hL]
            exact findIdx_append_cons _ pre r rs hpre_false hpredr
          rw [this]
      cases j with
      | zero =>
        have hreq : r = row := by
          simpa using hrow
        subst hreq
        simp only [assignRanks, hr, List.get?_cons_zero] at hout
        have houtr := Option.some.inj hout
        constructor
        · intro hcon
          rw [hr] at hcon
          cases hcon
        · intro v' hv'
          rw [hr] at hv'
          have hveq : v = v' := Option.some.inj hv'
          subst hveq
          rw [← houtr, hplace1]
      | succ k =>
        have hrow' : rs.get? k = some row := by
          simpa using hrow
        have hout' : (assignRanks L ((pre ++ [r]).length + 1)
            (if lastVal = some v then place else pre.length + 1) (some v) rs).get? k =
            some outRow := by
          have hlen : (pre ++ [r]).length + 1 = pre.length + 1 + 1 := by
            simp
          rw [hlen]
          simpa [assignRanks, hr] using hout
        refine ih (pre ++ [r]) (by rw [hL]; simp)
          (if lastVal = some v then place else pre.length + 1) (some v)
          ?_ ?_ k row outRow hrow' hout'
        · intro hcon
          cases hcon
        · intro v0 hv0
          have hv0v : v0 = v := (Option.some.inj hv0).symm
          rw [hv0v]
          refine ⟨hplace1, ⟨r, List.mem_append.mpr (Or.inr (List.mem_singleton.mpr rfl)), hr⟩, ?_⟩
          intro a ha w hw
          rcases List.mem_append.mp ha with h' | h'
          · cases hlast : lastVal with
            | none => rw [hnone hlast a h'] at hw; cases hw
            | some vL =>
              rcases hsome vL hlast with ⟨_, ⟨aw, haw, hawv⟩, hbound⟩
              have hwle : w ≤ vL := hbound a h' w hw
              have hawL : aw ∈ L := by
                rw [hL]
                exact List.mem_append.mpr (Or.inl haw)
              have hle : vL ≤ v :=
                rowLe_toPar_le (hcross aw haw r (List.mem_cons_self _ _))
                  (rankValue_some_toPar (hshape aw hawL) hawv)
                  (rankValue_some_toPar hshr hr)
              exact le_trans hwle hle
          · rw [List.mem_singleton.mp h'] at hw
            rw [hr] at hw
            exact le_of_eq (Option.some.inj hw).symm

/-- C3: in the leaderboard output, a row with no rank value displays no
rank; a row whose rank value is `v` displays the 1-based position of the
first row carrying `v`, prefixed `T-` exactly when more than one row
carries `v` (rank-valueless rows are not counted). -/
theorem c3_competition_ranking (parBy : List (Nat × Nat))
    (rounds : List (String × RoundState)) :
    ∀ j row, (leaderboard_rows parBy rounds).get? j = some row →
      (rankValue row = none → row.rank = none) ∧
      (∀ v, rankValue row = some v →
        row.rank = some (if 1 < freqOf (leaderboard_rows parBy rounds) v
          then "T-" ++ toString ((leaderboard_rows parBy rounds).findIdx
            (fun a => rankValue a == some v) + 1)
          else toString ((leaderboard_rows parBy rounds).findIdx
            (fun a => rankValue a == some v) + 1))) := by
  intro j row hrow
  have hdef : leaderboard_rows parBy rounds =
      assignRanks (List.insertionSort rowLe (rounds.map (fun q => mkRow parBy q.1 q.2)))
        1 0 none
        (List.insertionSort rowLe (rounds.map (fun q => mkRow parBy q.1 q.2))) := rfl
  have hshape : ∀ a ∈ List.insertionSort rowLe (rounds.map (fun q => mkRow parBy q.1 q.2)),
      a.toPar = none → a.total = none := by
    intro a ha
    have hmem : a ∈ rounds.map (fun q => mkRow parBy q.1 q.2) :=
      (List.perm_insertionSort rowLe _).mem_iff.mp ha
    rcases List.mem_map.mp hmem with ⟨q, _, rfl⟩
    exact mkRow_shape parBy q.1 q.2
  have hpw : List.Pairwise rowLe
      (List.insertionSort rowLe (rounds.map (fun q => mkRow parBy q.1 q.2))) :=
    List.sorted_insertionSort rowLe _
  rw [hdef] at hrow
  rcases assignRanks_getQ (List.insertionSort rowLe (rounds.map (fun q => mkRow parBy q.1 q.2)))
      1 0 none (List.insertionSort rowLe (rounds.map (fun q => mkRow parBy q.1 q.2))) j with
    ⟨x, hx⟩
  rw [hrow] at hx
  cases hsg : (List.insertionSort rowLe (rounds.map (fun q => mkRow parBy q.1 q.2))).get? j with
  | none =>
    rw [hsg] at hx
    cases hx
  | some row0 =>
    rw [hsg] at hx
    have hrow0 : row = { row0 with rank := x } := Option.some.inj hx
    have hrv : rankValue row = rankValue row0 := by
      rw [hrow0, rankValue_rank]
    have happ := assignRanks_spec
      (List.insertionSort rowLe (rounds.map (fun q => mkRow parBy q.1 q.2))) hshape hpw
      (List.insertionSort rowLe (rounds.map (fun q => mkRow parBy q.1 q.2))) []
      (List.nil_append _).symm 0 none
      (fun _ a ha => absurd ha (List.not_mem_nil a))
      (fun v0 h => nomatch h) j row0 row hsg hrow
    constructor
    · intro hn
      exact happ.1 (by rw [← hrv]; exact hn)
    · intro v hv
      have hres := happ.2 v (by rw [← hrv]; exact hv)
      rw [hdef, freqOf_assignRanks, findIdx_assignRanks]
      exact hres

theorem c3_witness :
    ((leaderboard_rows [(1, 4)]
        [("alpha", ⟨[(1, some 2)], [], none, none⟩),
         ("beta", ⟨[(1, some 2)], [], none, none⟩),
         ("gamma", ⟨[(1, some 5)], [], none, none⟩)]).get? 0 =
      some ⟨"alpha", some 2, none, some 2, some (-2), some ("-2"), 1, some ("T-1")⟩) ∧
    (⟨"alpha", some 2, none, some 2, some (-2), some ("-2"), 1, some ("T-1")⟩ : Row).rank =
      some ("T-1") ∧
    (⟨"beta", some 2, none, some 2, some (-2), some ("-2"), 1, some ("T-1")⟩ : Row).rank =
      some ("T-1") ∧
    (⟨"gamma", some 5, none, some 5, some 1, some ("+1"), 1, some ("3")⟩ : Row).rank =
      some ("3") := by
  refine ⟨rfl, ?_, ?_, ?_⟩
  · exact ((c3_competition_ranking [(1, 4)]
      [("alpha", ⟨[(1, some 2)], [], none, none⟩),
       ("beta", ⟨[(1, some 2)], [], none, none⟩),
       ("gamma", ⟨[(1, some 5)], [], none, none⟩)] 0
      ⟨"alpha", some 2, none, some 2, some (-2), some ("-2"), 1, some ("T-1")⟩ (by rfl)).2
      (-2) rfl).trans (by decide)
  · exact ((c3_competition_ranking [(1, 4)]
      [("alpha", ⟨[(1, some 2)], [], none, none⟩),
       ("beta", ⟨[(1, some 2)], [], none, none⟩),
       ("gamma", ⟨[(1, some 5)], [], none, none⟩)] 1
      ⟨"beta", some 2, none, some 2, some (-2), some ("-2"), 1, some ("T-1")⟩ (by rfl)).2
      (-2) rfl).trans (by decide)
  · exact ((c3_competition_ranking [(1, 4)]
      [("alpha", ⟨[(1, some 2)], [], none, none⟩),
       ("beta", ⟨[(1, some 2)], [], none, none⟩),
       ("gamma", ⟨[(1, some 5)], [], none, none⟩)] 2
      ⟨"gamma", some 5, none, some 5, some 1, some ("+1"), 1, some ("3")⟩ (by rfl)).2
      1 rfl).trans (by decide)

/-- C5: the leaderboard's row order — to-par absent-last then
ascending, total absent-last then ascending, then team name — is a
total relation, and every leaderboard output is pairwise sorted by
it. -/
theorem c5_sort_order :
    (∀ a b : Row, specKeyLe a b ∨ specKeyLe b a) ∧
    (∀ (parBy : List (Nat × Nat)) (rounds : List (String × RoundState)),
      List.Pairwise specKeyLe (leaderboard_rows parBy rounds)) := by
  constructor
  · intro a b
    rcases rowLE_total a b with h | h
    · exact Or.inl ((rowLe_iff_specKeyLe a b).mp h)
    · exact Or.inr ((rowLe_iff_specKeyLe b a).mp h)
  · intro parBy rounds
    have hpw : List.Pairwise rowLe
        (List.insertionSort rowLe (rounds.map (fun q => mkRow parBy q.1 q.2))) :=
      List.sorted_insertionSort rowLe _
    have hpw2 : List.Pairwise specKeyLe
        (List.insertionSort rowLe (rounds.map (fun q => mkRow parBy q.1 q.2))) :=
      hpw.imp (fun h => (rowLe_iff_specKeyLe _ _).mp h)
    exact pairwise_specKeyLe_assignRanks hpw2

theorem toParVal_eq (parBy : List (Nat × Nat)) (l : List (Nat × Nat)) :
    ((l.map (fun q => q.2)).sum : Int) - ((l.map (fun q => getD0 parBy q.1)).sum : Int) =
      (l.map (fun q => (q.2 : Int) - (getD0 parBy q.1 : Int))).sum := by
  induction l with
  | nil => simp
  | cons a l ih =>
    simp only [List.map_cons, List.sum_cons]
    push_cast
    push_cast at ih
    rw [← ih]
    ring

/-- C4: for a round with at least one scored hole, the leaderboard row
carries to-par equal to the sum over exactly the scored holes of the
stroke-minus-par differences (unscored holes contribute to neither
sum), rendered "E" at zero, "+N" when positive and the signed integer
when negative; with no scored hole, to-par, total and the rendered
string are all absent. -/
theorem c4_to_par (parBy : List (Nat × Nat)) (name : String) (r : RoundState) :
    (scoredOf r.scores ≠ [] →
      (mkRow parBy name r).toPar =
        some (((scoredOf r.scores).map
          (fun q => (q.2 : Int) - (getD0 parBy q.1 : Int))).sum)) ∧
    (scoredOf r.scores = [] →
      (mkRow parBy name r).toPar = none ∧
      (mkRow parBy name r).total = none ∧
      (mkRow parBy name r).toParStr = none) ∧
    ((mkRow parBy name r).toParStr = (mkRow parBy name r).toPar.map fmtToPar) ∧
    (∀ v : Int, (v = 0 → fmtToPar v = "E") ∧
      (0 < v → fmtToPar v = "+" ++ toString v) ∧
      (v < 0 → fmtToPar v = toString v)) := by
  refine ⟨?_, ?_, ?_, ?_⟩
  · intro hne
    have hie : (scoredOf r.scores).isEmpty = false := by
      rw [Bool.eq_false_iff]
      intro h
      exact hne (List.isEmpty_iff.mp h)
    simp [mkRow, hie, ← toParVal_eq parBy (scoredOf r.scores)]
    simp [Function.comp_def]
  · intro he
    have hie : (scoredOf r.scores).isEmpty = true := List.isEmpty_iff.mpr he
    simp [mkRow, hie]
  · by_cases hie : (scoredOf r.scores).isEmpty = true <;> simp [mkRow, hie]
  · intro v
    refine ⟨?_, ?_, ?_⟩
    · intro h0
      simp [fmtToPar, h0]
    · intro hpos
      have h0 : ¬v = 0 := by omega
      simp [fmtToPar, h0, hpos]
    · intro hneg
      have h0 : ¬v = 0 := by omega
      have hpos : ¬0 < v := by omega
      simp [fmtToPar, h0, hpos]

theorem c4_witness :
    (mkRow [(1, 4), (2, 4)] "Eagles"
        ⟨[(1, some 4), (2, some 5)], [], none, none⟩).toPar =
      some (((scoredOf ([(1, some 4), (2, some 5)] :
          List (Nat × Option Nat))).map
        (fun q => (q.2 : Int) - (getD0 [(1, 4), (2, 4)] q.1 : Int))).sum) ∧
    (mkRow [(1, 4), (2, 4)] "Eagles"
        ⟨[(1, some 4), (2, some 5)], [], none, none⟩).toPar = some 1 ∧
    (mkRow [(1, 4), (2, 4)] "Eagles"
        ⟨[(1, some 4), (2, some 5)], [], none, none⟩).toParStr = some ("+1") :=
  ⟨(c4_to_par [(1, 4), (2, 4)] "Eagles"
      ⟨[(1, some 4), (2, some 5)], [], none, none⟩).1 (by decide),
   by decide, by decide⟩
